import Mathlib

/-!
# goodreads-export: the record transformer of `main.go`

A shallow embedding of `Book.FromGoodreadsBook` and of the row loop, sort and
partition of `main`, together with the parts of the Go standard library they
call (`regexp`, `strings.TrimSpace`, `time.Parse`, `sort.Slice`).

Go strings are modelled as Lean strings, that is as sequences of Unicode
characters (valid UTF-8 text).
-/

namespace Goodreads

/-! ## `strings.TrimSpace` -/

/-- Go `unicode.IsSpace`: the Latin-1 spaces `\t \n \v \f \r`, space, U+0085, U+00A0 and
the characters of the `White_Space` table above Latin-1. -/
def isSpace (c : Char) : Bool :=
  let n := c.toNat
  (0x09 ≤ n && n ≤ 0x0d) || n == 0x20 || n == 0x85 || n == 0xa0 || n == 0x1680 ||
  (0x2000 ≤ n && n ≤ 0x200a) || n == 0x2028 || n == 0x2029 || n == 0x202f ||
  n == 0x205f || n == 0x3000

/-- Go `strings.TrimLeftFunc(s, unicode.IsSpace)` on the characters of `s`. -/
def trimLeft (s : List Char) : List Char := s.dropWhile isSpace

/-- Go `strings.TrimRightFunc(s, unicode.IsSpace)` on the characters of `s`. -/
def trimRight (s : List Char) : List Char := (s.reverse.dropWhile isSpace).reverse

/-- Go `strings.TrimSpace`: leading and trailing white space removed. -/
def TrimSpace (s : String) : String := ⟨trimRight (trimLeft s.data)⟩

/-! ## The regular expression `(.+)\((.+), #(.+)\)$`

Go's `regexp` returns the leftmost match and, among the matches starting there, the one a
backtracking search finds first (greedy operators try the longest run first).  The search is
written out for this pattern: each combinator lists its alternatives in priority order and
`List.findSome?` keeps the first that lets the rest of the pattern match. -/

/-- The class `.`: every character but the newline (the pattern sets no `s` flag). -/
def dot (c : Char) : Bool := c != '\n'

/-- The greedy `.+` at the head of `s`: every split of `s` into a non-empty run of `.`
characters and the rest, the longest run first. -/
def dotPlus : List Char → List (List Char × List Char)
  | [] => []
  | c :: cs =>
    if dot c then (dotPlus cs).map (fun p => (c :: p.1, p.2)) ++ [([c], cs)] else []

/-- A literal piece of the pattern: `lit p s` is what is left of `s` after its prefix `p`. -/
def lit : List Char → List Char → Option (List Char)
  | [], s => some s
  | _ :: _, [] => none
  | p :: ps, c :: cs => if p = c then lit ps cs else none

/-- The pattern matched at the head of `s`, up to the end of the text (`$`, no `m` flag):
the three captured groups of the first match in priority order. -/
def matchHere (s : List Char) : Option (List Char × List Char × List Char) :=
  (dotPlus s).findSome? fun p1 =>
    (lit ['('] p1.2).bind fun r2 =>
      (dotPlus r2).findSome? fun p2 =>
        (lit [',', ' ', '#'] p2.2).bind fun r4 =>
          (dotPlus r4).findSome? fun p3 =>
            (lit [')'] p3.2).bind fun r6 =>
              if r6 = [] then some (p1.1, p2.1, p3.1) else none

/-- The unanchored search: the leftmost start position at which the pattern matches, with
the matched text (which runs to the end of the input) and the three groups. -/
def findMatch : List Char → Option (List Char × List Char × List Char × List Char)
  | [] => none
  | c :: cs =>
    match matchHere (c :: cs) with
    | some g => some (c :: cs, g)
    | none => findMatch cs

/-- Go `regexp.MustCompile("(.+)\\((.+), #(.+)\\)$").FindStringSubmatch(s)`: `nil` (the
empty list) without a match, otherwise the matched text followed by the three groups. -/
def FindStringSubmatch (s : String) : List String :=
  match findMatch s.data with
  | some (m, g1, g2, g3) => [⟨m⟩, ⟨g1⟩, ⟨g2⟩, ⟨g3⟩]
  | none => []

/-! ## `time.Time` and `time.Parse` -/

/-- A `time.Time` in UTC, given by its civil fields.  Every time the program builds comes
from `time.Parse` without a zone, so it is a normalised UTC time. -/
structure Time where
  Year : Nat
  Month : Nat
  Day : Nat
  Hour : Nat
  Minute : Nat
  Second : Nat
  Nanosecond : Nat
  deriving DecidableEq, Repr

/-- Strict lexicographic order on lists of numbers of the same length. -/
def lexLt : List Nat → List Nat → Bool
  | a :: as, b :: bs => decide (a < b) || (a == b && lexLt as bs)
  | _, _ => false

/-- The civil fields of a time, most significant first. -/
def Time.fields (t : Time) : List Nat :=
  [t.Year, t.Month, t.Day, t.Hour, t.Minute, t.Second, t.Nanosecond]

/-- Go `Time.Before`: `t` is an earlier instant than `u`; on normalised UTC times this is
the lexicographic order of the civil fields. -/
def Time.Before (t u : Time) : Bool := lexLt t.fields u.fields

/-- Go `type date time.Time`. -/
abbrev date := Time

/-- The zero `time.Time`: January 1, year 1, 00:00:00 UTC. -/
def Time.zero : Time := ⟨1, 1, 1, 0, 0, 0, 0⟩

instance : Inhabited Time := ⟨Time.zero⟩

/-- Go `*time.ParseError`, reduced to the layout and the text that failed to parse (the
element and message fields are left out). -/
structure ParseError where
  Layout : String
  Value : String
  deriving DecidableEq, Repr

/-- The layout the program passes to `time.Parse`.  In Go's reference time
`01/02 03:04:05PM '06`, `2006` is the four-digit year, `05` the two-digit second and `04`
the two-digit minute: the layout reads *year / second / minute*. -/
def layout : String := "2006/05/04"

/-- Go `isDigit` of package `time`. -/
def isDigit (c : Char) : Bool := decide ('0' ≤ c) && decide (c ≤ '9')

/-- The value of a decimal digit. -/
def digitVal (c : Char) : Nat := c.toNat - '0'.toNat

/-- The number written by a list of decimal digits. -/
def digitsVal (ds : List Char) : Nat := ds.foldl (fun n c => 10 * n + digitVal c) 0

/-- Chunk `stdLongYear` (`2006`): four characters, all digits (`atoi` of `value[0:4]`). -/
def getLongYear : List Char → Option (Nat × List Char)
  | a :: b :: c :: d :: rest =>
    if isDigit a && isDigit b && isDigit c && isDigit d then
      some (digitsVal [a, b, c, d], rest)
    else none
  | _ => none

/-- Go `getnum(s, true)`: exactly two digits. -/
def getnum : List Char → Option (Nat × List Char)
  | a :: b :: rest =>
    if isDigit a && isDigit b then some (digitVal a * 10 + digitVal b, rest) else none
  | _ => none

/-- Go `commaOrPeriod`. -/
def commaOrPeriod (c : Char) : Bool := c == '.' || c == ','

/-- Go `parseNanoseconds` on the digits that follow the separator: at most nine digits are
read, scaled to nanoseconds. -/
def parseNanoseconds (ds : List Char) : Nat :=
  digitsVal (ds.take 9) * 10 ^ (9 - (ds.take 9).length)

/-- The special case of chunk `stdZeroSecond`: a fractional second in the value that the
layout does not mention (`.` or `,` followed by a digit) is read all the same. -/
def getFraction : List Char → Nat × List Char
  | sep :: d :: rest =>
    if commaOrPeriod sep && isDigit d then
      (parseNanoseconds ((d :: rest).takeWhile isDigit), (d :: rest).dropWhile isDigit)
    else (0, sep :: d :: rest)
  | value => (0, value)

/-- Go `skip(value, "/")`: the literal `/` between two chunks. -/
def skip : List Char → Option (List Char)
  | '/' :: rest => some rest
  | _ => none

/-- The chunks of `time.Parse` for the layout `2006/05/04`, on the characters of `value`:
year, `/`, second (below 60, with an optional fraction), `/`, minute (below 60), and no
text left over.  Month and day keep their default, January 1. -/
def parseChunks (value : List Char) : Option Time := do
  let (year, value) ← getLongYear value
  let value ← skip value
  let (sec, value) ← getnum value
  if 60 ≤ sec then none
  let (nsec, value) := getFraction value
  let value ← skip value
  let (min, value) ← getnum value
  if 60 ≤ min then none
  if value ≠ [] then none
  pure ⟨year, 1, 1, 0, min, sec, nsec⟩

/-- Go `time.Parse("2006/05/04", value)`. -/
def Parse (value : String) : Except ParseError Time :=
  match parseChunks value.data with
  | some t => .ok t
  | none => .error ⟨layout, value⟩

/-! ## `time.Time.Format` and `date.MarshalText` -/

/-- The character of a decimal digit. -/
def digitChar (n : Nat) : Char := Char.ofNat ('0'.toNat + n)

/-- Go `appendInt(b, x, width)` of package `time` for `x ≥ 0`: the decimal digits of `x`,
padded with zeros on the left to at least `width` digits (two- and four-digit fields take
the short path of the Go code). -/
def appendInt (x width : Nat) : List Char :=
  if width = 2 ∧ x < 100 then [digitChar (x / 10), digitChar (x % 10)]
  else if width = 4 ∧ x < 10000 then
    [digitChar (x / 1000), digitChar (x / 100 % 10), digitChar (x / 10 % 10), digitChar (x % 10)]
  else
    List.replicate (width - (Nat.toDigits 10 x).length) '0' ++ Nat.toDigits 10 x

/-- The formatting loop of `Time.Format` on the characters of a layout made of the chunks
`2006` (year, four digits), `05` (second, two digits), `04` (minute, two digits) and
literal text, which is all that the layouts of the program hold. -/
def formatChunks : List Char → Time → List Char
  | '2' :: '0' :: '0' :: '6' :: rest, t => appendInt t.Year 4 ++ formatChunks rest t
  | '0' :: '5' :: rest, t => appendInt t.Second 2 ++ formatChunks rest t
  | '0' :: '4' :: rest, t => appendInt t.Minute 2 ++ formatChunks rest t
  | c :: rest, t => c :: formatChunks rest t
  | [], _ => []

/-- Go `t.Format(layout)`, for the layouts `2006/05/04` and `2006-05-04`. -/
def Time.Format (t : Time) (layout : String) : String := ⟨formatChunks layout.data t⟩

/-- Go `date.MarshalText`: the text of the date under the layout `2006-05-04` (the error
it returns is always `nil`). -/
def date.MarshalText (d : date) : String := Time.Format d "2006-05-04"

/-! ## The records -/

/-- `GoodreadsBook` is a row of the Goodreads CSV export. -/
structure GoodreadsBook where
  Title : String
  Author : String
  DateRead : String
  DateAdded : String
  Shelf : String
  deriving DecidableEq, Repr

/-- `Book` is the program's representation of a book; `nil` pointers are `none`. -/
structure Book where
  Title : String
  Series : Option String
  SeriesVolume : Option String
  Author : String
  ReadAt : Option date
  AddedAt : date
  Shelf : String
  deriving DecidableEq, Repr

/-- The zero value `Book{}`. -/
def Book.fresh : Book := ⟨"", none, none, "", none, Time.zero, ""⟩

/-- `FromGoodreadsBook` transforms a row into a `Book`.  The receiver is a pointer: the
result is the receiver after the call together with the error returned (`none` for `nil`),
so the fields written before a failing date parse are visible. -/
def Book.FromGoodreadsBook (b : Book) (src : GoodreadsBook) : Book × Option ParseError :=
  let b := { b with Author := src.Author }
  let b := { b with Shelf := src.Shelf }
  let ms := FindStringSubmatch src.Title
  let b :=
    if ms.length > 1 then
      { b with Title := TrimSpace (ms.getD 1 ""),
               Series := some (ms.getD 2 ""),
               SeriesVolume := some (ms.getD 3 "") }
    else
      { b with Title := src.Title }
  let readStep : Book × Option ParseError :=
    if src.DateRead ≠ "" then
      match Parse src.DateRead with
      | .error err => (b, some err)
      | .ok t => ({ b with ReadAt := some t }, none)
    else (b, none)
  match readStep with
  | (b, some err) => (b, some err)
  | (b, none) =>
    match Parse src.DateAdded with
    | .error err => (b, some err)
    | .ok t => ({ b with AddedAt := t }, none)

/-- The `Output` document: the two shelves. -/
structure Output where
  Read : List Book
  ToRead : List Book
  deriving DecidableEq, Repr

/-! ## `sort.Slice` and `main` -/

/-- The comparator `main` hands to `sort.Slice`, on the two books at the indices it is
called with: true as soon as either read date is `nil`, else "read strictly earlier". -/
def less (a b : Book) : Bool :=
  match a.ReadAt, b.ReadAt with
  | some t, some u => t.Before u
  | _, _ => true

/-- Go `data.Swap(i, j)` on a slice held as a list. -/
def swap (data : List Book) (i j : Nat) : List Book :=
  match data[i]?, data[j]? with
  | some x, some y => (data.set i y).set j x
  | _, _ => data

/-- The inner loop of Go's insertion sort,
`for j := i; j > a && less(j, j-1); j-- { swap(j, j-1) }` with `a = 0`, entered at `j`. -/
def insertLoop (lt : Book → Book → Bool) (data : List Book) : Nat → List Book
  | 0 => data
  | j + 1 =>
    match data[j + 1]?, data[j]? with
    | some x, some y => if lt x y then insertLoop lt (swap data (j + 1) j) j else data
    | _, _ => data

/-- The outer loop of Go's insertion sort, `for i := a + 1; i < b; i++`, entered at `i`
with `n = b - i` iterations to go. -/
def outerLoop (lt : Book → Book → Bool) (data : List Book) (i : Nat) : Nat → List Book
  | 0 => data
  | n + 1 => outerLoop lt (insertLoop lt data i) (i + 1) n

/-- Go `insertionSortLessFunc(data, 0, len(data))`. -/
def insertionSortLessFunc (lt : Book → Book → Bool) (data : List Book) : List Book :=
  outerLoop lt data 1 (data.length - 1)

/-- Go `sort.Slice(data, less)` (Go 1.19 and later): a slice of at most 12 elements is
sorted by insertion sort; a longer one goes through the pattern-defeating quicksort, which
is not part of this development and is taken as the parameter `pdq`. -/
def sortSlice (pdq : (Book → Book → Bool) → List Book → List Book)
    (lt : Book → Book → Bool) (data : List Book) : List Book :=
  if data.length ≤ 12 then insertionSortLessFunc lt data else pdq lt data

/-- The row loop of `main`: each row is transformed from a fresh `Book` and appended to
`books`; the first error ends the run (`log.Fatal`). -/
def rowLoop : List GoodreadsBook → List Book → Except ParseError (List Book)
  | [], books => .ok books
  | v :: rest, books =>
    match Book.fresh.FromGoodreadsBook v with
    | (_, some err) => .error err
    | (book, none) => rowLoop rest (books ++ [book])

/-- One step of the partition loop of `main`: the `switch v.Shelf`. -/
def place (output : Output) (v : Book) : Output :=
  if v.Shelf = "read" then { output with Read := output.Read ++ [v] }
  else if v.Shelf = "to-read" then { output with ToRead := output.ToRead ++ [v] }
  else output

/-- The partition loop of `main` over the sorted books, from the empty `Output{}`. -/
def partition (books : List Book) : Output := books.foldl place ⟨[], []⟩

/-- The sorted sequence `main` partitions: the books of the row loop after `sort.Slice`. -/
def sortedBooks (pdq : (Book → Book → Bool) → List Book → List Book)
    (rows : List GoodreadsBook) : Except ParseError (List Book) :=
  match rowLoop rows [] with
  | .error err => .error err
  | .ok books => .ok (sortSlice pdq less books)

/-- The body of `main` from the decoded rows to the document it encodes: row loop, sort,
partition.  An error stands for the `log.Fatal` exit, which writes no document. -/
def run (pdq : (Book → Book → Bool) → List Book → List Book)
    (rows : List GoodreadsBook) : Except ParseError Output :=
  match sortedBooks pdq rows with
  | .error err => .error err
  | .ok books => .ok (partition books)

/-! ## The title pattern, declaratively -/

/-- A run that `.+` can capture: non-empty, without a newline. -/
def IsGroup (g : List Char) : Prop := g ≠ [] ∧ ∀ c ∈ g, dot c = true

/-- The text `s` is, from its first character to its end, a match of
`(.+)\((.+), #(.+)\)$` with groups `g1`, `g2`, `g3`. -/
def MatchAt (s g1 g2 g3 : List Char) : Prop :=
  IsGroup g1 ∧ IsGroup g2 ∧ IsGroup g3 ∧
    s = g1 ++ '(' :: (g2 ++ ',' :: ' ' :: '#' :: (g3 ++ [')']))

/-- The title matches the series pattern: the pattern, which is anchored at the end of the
text only, matches some suffix of the title. -/
def MatchesPattern (title : String) : Prop :=
  ∃ pre g1 g2 g3, title.data = pre ++ (g1 ++ '(' :: (g2 ++ ',' :: ' ' :: '#' :: (g3 ++ [')']))) ∧
    IsGroup g1 ∧ IsGroup g2 ∧ IsGroup g3

/-! ## The sort, as a function on lists -/

/-- One pass of the inner loop seen from the element it moves: `x` enters the already
processed prefix, given nearest element first (`rp` is the prefix reversed), and goes left
past every element `y` with `lt x y`, stopping at the first one without. -/
def insertRev (lt : Book → Book → Bool) (x : Book) : List Book → List Book
  | [] => [x]
  | y :: r => if lt x y then y :: insertRev lt x r else x :: y :: r

/-- What Go's documentation asks of `less` ("must describe a transitive ordering"), on the
elements of the slice: irreflexive, transitive, and transitive in its negation. -/
def TransitiveOrdering (lt : Book → Book → Bool) (data : List Book) : Prop :=
  (∀ a ∈ data, lt a a = false) ∧
  (∀ a ∈ data, ∀ b ∈ data, ∀ c ∈ data, lt a b = true → lt b c = true → lt a c = true) ∧
  (∀ a ∈ data, ∀ b ∈ data, ∀ c ∈ data, lt a b = false → lt b c = false → lt a c = false)

/-- The contract of the sort for long slices: when `less` is a transitive ordering on the
slice, the result is a rearrangement of the slice in which no element is `less` than an
earlier one. -/
def SortContract (pdq : (Book → Book → Bool) → List Book → List Book) : Prop :=
  ∀ lt data, TransitiveOrdering lt data →
    (pdq lt data).Perm data ∧ (pdq lt data).Pairwise (fun a b => lt b a = false)

/-- The fields of a parsed read date that can differ from one book to the next: year, minute
(the third field of the date text), second (its second field) and the fraction of the
second, most significant first. -/
def readKey (t : Time) : List Nat := [t.Year, t.Minute, t.Second, t.Nanosecond]

/-- Both books have a read date and the first is not read later than the second, in the
lexicographic order of `readKey`. -/
def ReadNoLater (a b : Book) : Prop :=
  ∃ t u, a.ReadAt = some t ∧ b.ReadAt = some u ∧ lexLt (readKey u) (readKey t) = false

/-- No book with a read date comes before a book without one. -/
def AbsentFirst (books : List Book) : Prop :=
  books.Pairwise (fun a b => a.ReadAt ≠ none → b.ReadAt ≠ none)

/-- Every book with a read date that comes after a book without one in the input has
before it, in the input, a book with a read date that the comparator does not put after
it (a book read no later). -/
def DatedAnchored (books : List Book) : Prop :=
  ∀ pre x post, books = pre ++ x :: post → x.ReadAt ≠ none →
    (∃ n ∈ pre, n.ReadAt = none) → ∃ y ∈ pre, y.ReadAt ≠ none ∧ less x y = false

/-! ## The sort for long slices, as calls to `Less` and `Swap` -/

/-- Go `data.Less(i, j)` for the `lessSwap` that `sort.Slice` builds: the comparator of the
caller on the elements now at `i` and `j` (the library only asks for indices inside the
slice; outside it the answer here is `false`). -/
def lessAt (lt : Book → Book → Bool) (data : List Book) (i j : Nat) : Bool :=
  match data[i]?, data[j]? with
  | some x, some y => lt x y
  | _, _ => false

/-- A run of library code over a Go `lessSwap`.  `sort.Slice` hands its sorting routine
(`pdqsort_func(data lessSwap, a, b, limit)`) the slice only as the two closures
`Less(i, j)` and `Swap(i, j)` and its length: whatever the routine does is a finite
series of such calls, each chosen from the answers received so far. -/
inductive LessSwap where
  | done : LessSwap
  | less (i j : Nat) (next : Bool → LessSwap) : LessSwap
  | swap (i j : Nat) (next : LessSwap) : LessSwap

/-- The effect on the slice of a run over its `lessSwap`: `Less` reads, `Swap` swaps. -/
def LessSwap.run (lt : Book → Book → Bool) : LessSwap → List Book → List Book
  | .done, data => data
  | .less i j next, data => (next (lessAt lt data i j)).run lt data
  | .swap i j next, data => next.run lt (Goodreads.swap data i j)

/-- The sort for long slices given by the run `routine n` on slices of length `n`, in the
form `sortSlice` takes it. -/
def lessSwapSort (routine : Nat → LessSwap) (lt : Book → Book → Bool) (data : List Book) :
    List Book :=
  (routine data.length).run lt data

/-- The inner loop of Go's insertion sort, entered at `j`, as calls to `Less` and `Swap`,
followed by the run `k`. -/
def insertLoopRun : Nat → LessSwap → LessSwap
  | 0, k => k
  | j + 1, k =>
    .less (j + 1) j (fun b => if b then .swap (j + 1) j (insertLoopRun j k) else k)

/-- The outer loop of Go's insertion sort, entered at `i` with `n` iterations to go, as
calls to `Less` and `Swap`. -/
def outerLoopRun (i : Nat) : Nat → LessSwap
  | 0 => .done
  | n + 1 => insertLoopRun i (outerLoopRun (i + 1) n)

/-- Go `insertionSortLessFunc(data, 0, n)` as calls to `Less` and `Swap`. -/
def insertionSortRun (n : Nat) : LessSwap := outerLoopRun 1 (n - 1)

/-! ## Lemmas on the pattern search -/

theorem mem_dotPlus {s g r : List Char} :
    (g, r) ∈ dotPlus s ↔ IsGroup g ∧ s = g ++ r := by
  induction s generalizing g with
  | nil =>
    simp only [dotPlus, List.not_mem_nil, false_iff, not_and]
    rintro ⟨hne, _⟩ hs
    cases g with
    | nil => exact hne rfl
    | cons x g' => simp at hs
  | cons c cs ih =>
    unfold dotPlus
    by_cases hc : dot c = true
    · simp only [hc, if_true, List.mem_append, List.mem_map, List.mem_singleton, Prod.mk.injEq,
        Prod.exists]
      constructor
      · rintro (⟨a, b, hab, rfl, rfl⟩ | ⟨rfl, rfl⟩)
        · obtain ⟨⟨_, hd⟩, rfl⟩ := ih.mp hab
          refine ⟨⟨by simp, ?_⟩, by simp⟩
          intro x hx
          rcases List.mem_cons.mp hx with rfl | hx
          · exact hc
          · exact hd x hx
        · exact ⟨⟨by simp, by simpa using hc⟩, by simp⟩
      · rintro ⟨⟨hne, hd⟩, hs⟩
        cases g with
        | nil => exact absurd rfl hne
        | cons x g' =>
          simp only [List.cons_append, List.cons.injEq] at hs
          obtain ⟨rfl, rfl⟩ := hs
          cases g' with
          | nil => right; simp
          | cons y g'' =>
            left
            refine ⟨y :: g'', r, ih.mpr ⟨⟨by simp, ?_⟩, rfl⟩, rfl, rfl⟩
            intro z hz
            exact hd z (List.mem_cons_of_mem _ hz)
    · simp only [hc, Bool.false_eq_true, if_false, List.not_mem_nil, false_iff, not_and]
      rintro ⟨hne, hd⟩ hs
      cases g with
      | nil => exact hne rfl
      | cons x g' =>
        simp only [List.cons_append, List.cons.injEq] at hs
        exact hc (hs.1 ▸ hd x (List.mem_cons_self _ _))

theorem lit_eq_some {p s r : List Char} : lit p s = some r ↔ s = p ++ r := by
  induction p generalizing s with
  | nil => simp [lit, eq_comm]
  | cons a p ih =>
    cases s with
    | nil => simp [lit]
    | cons c cs =>
      by_cases h : a = c
      · subst h; simp [lit, ih]
      · have h' : ¬ c = a := fun e => h e.symm
        simp [lit, h, h']

/-- The greedy step: when no longer run lets the continuation succeed, the search over the
runs of `g ++ r` returns what the continuation gives on the run `g`. -/
theorem findSome_dotPlus_greedy {β : Type} (g r : List Char) (hg : IsGroup g) :
    ∀ (f : List Char × List Char → Option β) (b : β), f (g, r) = some b →
      (∀ g' r', g' ≠ [] → r = g' ++ r' → f (g ++ g', r') = none) →
      (dotPlus (g ++ r)).findSome? f = some b := by
  obtain ⟨hne, hd⟩ := hg
  induction g with
  | nil => exact absurd rfl hne
  | cons c g ih =>
    intro f b hf hlong
    have hc : dot c = true := hd c (List.mem_cons_self _ _)
    simp only [List.cons_append, dotPlus, hc, if_true, List.findSome?_append,
      List.findSome?_map]
    cases g with
    | nil =>
      have hnone : (dotPlus r).findSome? (f ∘ fun p => (c :: p.1, p.2)) = none := by
        rw [List.findSome?_eq_none_iff]
        rintro ⟨a, b'⟩ hab
        obtain ⟨⟨hane, _⟩, hr⟩ := mem_dotPlus.mp hab
        exact hlong a b' hane hr
      simp [hnone, hf]
    | cons y g' =>
      have hd' : ∀ x ∈ y :: g', dot x = true := fun x hx => hd x (List.mem_cons_of_mem _ hx)
      have := ih (by simp) hd' (f ∘ fun p => (c :: p.1, p.2)) b (by simpa using hf)
        (by intro g'' r' h1 h2; simpa using hlong g'' r' h1 h2)
      simp only [List.cons_append] at this
      simp [this]

/-- Soundness of the match at the head: the groups found decompose the text. -/
theorem matchHere_sound {s g1 g2 g3 : List Char} (h : matchHere s = some (g1, g2, g3)) :
    MatchAt s g1 g2 g3 := by
  unfold matchHere at h
  obtain ⟨⟨a1, r1⟩, h1m, h1⟩ := List.exists_of_findSome?_eq_some h
  obtain ⟨hg1, hs1⟩ := mem_dotPlus.mp h1m
  obtain ⟨r2, hl2, h2⟩ := Option.bind_eq_some.mp h1
  obtain ⟨⟨a2, r3⟩, h2m, h3⟩ := List.exists_of_findSome?_eq_some h2
  obtain ⟨hg2, hs2⟩ := mem_dotPlus.mp h2m
  obtain ⟨r4, hl4, h4⟩ := Option.bind_eq_some.mp h3
  obtain ⟨⟨a3, r5⟩, h3m, h5⟩ := List.exists_of_findSome?_eq_some h4
  obtain ⟨hg3, hs3⟩ := mem_dotPlus.mp h3m
  obtain ⟨r6, hl6, h6⟩ := Option.bind_eq_some.mp h5
  have hr6 : r6 = [] := by
    by_contra hne
    simp [hne] at h6
  simp only [hr6, if_true, Option.some.injEq, Prod.mk.injEq] at h6
  obtain ⟨rfl, rfl, rfl⟩ := h6
  have e2 := lit_eq_some.mp hl2
  have e4 := lit_eq_some.mp hl4
  have e6 := lit_eq_some.mp hl6
  simp only at e2 e4 e6 hs1 hs2 hs3
  refine ⟨hg1, hg2, hg3, ?_⟩
  rw [hs1, e2, hs2, e4, hs3, e6, hr6]
  simp

/-- Completeness of the match at the head: a text that decomposes is matched. -/
theorem matchHere_complete {s g1 g2 g3 : List Char} (h : MatchAt s g1 g2 g3) :
    (matchHere s).isSome = true := by
  obtain ⟨hg1, hg2, hg3, rfl⟩ := h
  unfold matchHere
  rw [List.findSome?_isSome_iff]
  refine ⟨(g1, _), mem_dotPlus.mpr ⟨hg1, rfl⟩, ?_⟩
  simp only [lit, if_true, Option.some_bind]
  rw [List.findSome?_isSome_iff]
  refine ⟨(g2, _), mem_dotPlus.mpr ⟨hg2, rfl⟩, ?_⟩
  simp only [lit, if_true, Option.some_bind]
  rw [List.findSome?_isSome_iff]
  refine ⟨(g3, _), mem_dotPlus.mpr ⟨hg3, rfl⟩, ?_⟩
  simp [lit]

theorem findMatch_sound {s m g1 g2 g3 : List Char}
    (h : findMatch s = some (m, g1, g2, g3)) :
    (∃ pre, s = pre ++ m) ∧ MatchAt m g1 g2 g3 := by
  induction s with
  | nil => simp [findMatch] at h
  | cons c cs ih =>
    unfold findMatch at h
    cases hm : matchHere (c :: cs) with
    | some g =>
      rw [hm] at h
      simp only [Option.some.injEq, Prod.mk.injEq] at h
      obtain ⟨rfl, rfl⟩ := h
      exact ⟨⟨[], rfl⟩, matchHere_sound hm⟩
    | none =>
      rw [hm] at h
      obtain ⟨⟨pre, hpre⟩, hM⟩ := ih h
      exact ⟨⟨c :: pre, by simp [hpre]⟩, hM⟩

theorem findMatch_complete (pre : List Char) {m g1 g2 g3 : List Char}
    (h : MatchAt m g1 g2 g3) : (findMatch (pre ++ m)).isSome = true := by
  have hm := matchHere_complete h
  induction pre with
  | nil =>
    cases m with
    | nil => simp [matchHere, dotPlus] at hm
    | cons c cs =>
      obtain ⟨g, hg⟩ := Option.isSome_iff_exists.mp hm
      simp [findMatch, hg]
  | cons c pre ih =>
    simp only [List.cons_append, findMatch]
    cases matchHere (c :: (pre ++ m)) with
    | some g => rfl
    | none => exact ih

/-- The search finds a match exactly on the titles that match the pattern. -/
theorem findMatch_isSome_iff (title : String) :
    (findMatch title.data).isSome = true ↔ MatchesPattern title := by
  constructor
  · intro h
    obtain ⟨⟨m, g1, g2, g3⟩, hg⟩ := Option.isSome_iff_exists.mp h
    obtain ⟨⟨pre, hpre⟩, h1, h2, h3, hm⟩ := findMatch_sound hg
    exact ⟨pre, g1, g2, g3, by rw [hpre, hm], h1, h2, h3⟩
  · rintro ⟨pre, g1, g2, g3, ht, h1, h2, h3⟩
    rw [ht]
    exact findMatch_complete pre ⟨h1, h2, h3, rfl⟩

theorem FindStringSubmatch_length (title : String) :
    (FindStringSubmatch title).length > 1 ↔ MatchesPattern title := by
  rw [← findMatch_isSome_iff]
  unfold FindStringSubmatch
  cases findMatch title.data with
  | none => simp
  | some g => obtain ⟨m, g1, g2, g3⟩ := g; simp

/-- With no `(` in the series and volume texts and no `, #` in the volume text, the match
at the head of `p(s, #v)` captures exactly `p`, `s` and `v`. -/
theorem matchHere_greedy {p s v : List Char} (hp : IsGroup p) (hs : IsGroup s)
    (hv : IsGroup v) (hs' : '(' ∉ s) (hv' : '(' ∉ v)
    (hv'' : ¬ [',', ' ', '#'] <:+: v) :
    matchHere (p ++ '(' :: (s ++ ',' :: ' ' :: '#' :: (v ++ [')']))) = some (p, s, v) := by
  unfold matchHere
  apply findSome_dotPlus_greedy p _ hp
  · simp only [lit, if_true, Option.some_bind]
    apply findSome_dotPlus_greedy s _ hs
    · simp only [lit, if_true, Option.some_bind]
      apply findSome_dotPlus_greedy v _ hv
      · simp [lit]
      · intro g' r' hne hr
        cases g' with
        | nil => exact absurd rfl hne
        | cons x g'' =>
          simp only [List.cons_append, List.cons.injEq] at hr
          obtain ⟨-, hr⟩ := hr
          have : r' = [] := by
            have := congrArg List.length hr
            simp at this
            exact List.eq_nil_of_length_eq_zero (by omega)
          simp [this, lit]
    · intro g' r' hne hr
      cases hl : lit [',', ' ', '#'] r' with
      | none => simp [hl]
      | some r4 =>
        simp only [hl, Option.some_bind, List.findSome?_eq_none_iff]
        rintro ⟨a3, r5⟩ h3m
        obtain ⟨⟨ha3, _⟩, hr4⟩ := mem_dotPlus.mp h3m
        cases hl6 : lit [')'] r5 with
        | none => simp [hl6]
        | some r6 =>
          by_cases hr6 : r6 = []
          · exfalso
            have e1 := lit_eq_some.mp hl
            have e6 := lit_eq_some.mp hl6
            subst hr6
            rw [e1, hr4, e6] at hr
            apply hv''
            rcases g' with _ | ⟨x1, _ | ⟨x2, _ | ⟨x3, g4⟩⟩⟩
            · exact absurd rfl hne
            · simp at hr
            · simp at hr
            · refine ⟨g4, a3, ?_⟩
              simp only [List.cons_append, List.cons.injEq, List.nil_append,
                List.append_assoc] at hr
              obtain ⟨-, -, -, hr⟩ := hr
              have h2 : v ++ [')'] = (g4 ++ [',', ' ', '#'] ++ a3) ++ [')'] := by
                simpa using hr
              exact (List.append_cancel_right h2).symm
          · simp [hl6, hr6]
  · intro g' r' hne hr
    cases hl : lit ['('] r' with
    | none => simp [hl]
    | some r2 =>
      exfalso
      have e := lit_eq_some.mp hl
      cases g' with
      | nil => exact hne rfl
      | cons x g'' =>
        rw [e] at hr
        simp only [List.cons_append, List.cons.injEq, List.nil_append] at hr
        have hmem : '(' ∈ s ++ ',' :: ' ' :: '#' :: (v ++ [')']) := by
          rw [hr.2]; simp
        simp only [List.mem_append, List.mem_cons, List.mem_singleton, List.not_mem_nil] at hmem
        rcases hmem with h | h | h | h | h | h
        · exact hs' h
        · exact absurd h (by decide)
        · exact absurd h (by decide)
        · exact absurd h (by decide)
        · exact hv' h
        · exact absurd h (by decide)

/-! ## Lemmas on `TrimSpace` and on the fields `FromGoodreadsBook` writes -/

theorem trimRight_append_space (l : List Char) : trimRight (l ++ [' ']) = trimRight l := by
  have h : isSpace ' ' = true := by decide
  simp [trimRight, List.dropWhile_cons, h]

theorem trim_append_space (l : List Char) :
    trimRight (trimLeft (l ++ [' '])) = trimRight (trimLeft l) := by
  induction l with
  | nil =>
    have h : isSpace ' ' = true := by decide
    simp [trimLeft, trimRight, List.dropWhile_cons, h]
  | cons c l ih =>
    by_cases hc : isSpace c = true
    · simpa [trimLeft, List.dropWhile_cons, hc] using ih
    · have e1 : trimLeft (c :: l ++ [' ']) = (c :: l) ++ [' '] := by
        simp [trimLeft, List.dropWhile_cons, hc]
      have e2 : trimLeft (c :: l) = c :: l := by
        simp [trimLeft, List.dropWhile_cons, hc]
      rw [e1, e2, trimRight_append_space]

/-- The title step when the search finds a match. -/
theorem FromGoodreadsBook_of_match (b : Book) (src : GoodreadsBook) {m g1 g2 g3 : List Char}
    (h : findMatch src.Title.data = some (m, g1, g2, g3)) :
    (b.FromGoodreadsBook src).1.Title = TrimSpace ⟨g1⟩ ∧
    (b.FromGoodreadsBook src).1.Series = some ⟨g2⟩ ∧
    (b.FromGoodreadsBook src).1.SeriesVolume = some ⟨g3⟩ := by
  have hms : FindStringSubmatch src.Title = [⟨m⟩, ⟨g1⟩, ⟨g2⟩, ⟨g3⟩] := by
    simp [FindStringSubmatch, h]
  unfold Book.FromGoodreadsBook
  by_cases hr : src.DateRead = "" <;> cases Parse src.DateRead <;>
    cases Parse src.DateAdded <;> simp [hms, hr]

/-- The title step when the search finds no match. -/
theorem FromGoodreadsBook_of_no_match (b : Book) (src : GoodreadsBook)
    (h : findMatch src.Title.data = none) :
    (b.FromGoodreadsBook src).1.Title = src.Title ∧
    (b.FromGoodreadsBook src).1.Series = b.Series ∧
    (b.FromGoodreadsBook src).1.SeriesVolume = b.SeriesVolume := by
  have hms : FindStringSubmatch src.Title = [] := by
    simp [FindStringSubmatch, h]
  unfold Book.FromGoodreadsBook
  by_cases hr : src.DateRead = "" <;> cases Parse src.DateRead <;>
    cases Parse src.DateAdded <;> simp [hms, hr]

/-- The error `FromGoodreadsBook` returns, read off the two date fields. -/
theorem FromGoodreadsBook_error (b : Book) (src : GoodreadsBook) :
    (b.FromGoodreadsBook src).2 =
      if src.DateRead ≠ "" then
        match Parse src.DateRead with
        | .error err => some err
        | .ok _ =>
          match Parse src.DateAdded with
          | .error err => some err
          | .ok _ => none
      else
        match Parse src.DateAdded with
        | .error err => some err
        | .ok _ => none := by
  unfold Book.FromGoodreadsBook
  by_cases hm : (FindStringSubmatch src.Title).length > 1 <;>
    by_cases hr : src.DateRead = "" <;> cases Parse src.DateRead <;>
    cases Parse src.DateAdded <;> simp [hr, hm]

/-- The read date `FromGoodreadsBook` leaves in the book. -/
theorem FromGoodreadsBook_ReadAt (b : Book) (src : GoodreadsBook) :
    (b.FromGoodreadsBook src).1.ReadAt =
      if src.DateRead ≠ "" then
        match Parse src.DateRead with
        | .error _ => b.ReadAt
        | .ok t => some t
      else b.ReadAt := by
  unfold Book.FromGoodreadsBook
  by_cases hm : (FindStringSubmatch src.Title).length > 1 <;>
    by_cases hr : src.DateRead = "" <;> cases Parse src.DateRead <;>
    cases Parse src.DateAdded <;> simp [hr, hm]

/-- Author and shelf are written first, whatever happens next. -/
theorem FromGoodreadsBook_Author_Shelf (b : Book) (src : GoodreadsBook) :
    (b.FromGoodreadsBook src).1.Author = src.Author ∧
    (b.FromGoodreadsBook src).1.Shelf = src.Shelf := by
  unfold Book.FromGoodreadsBook
  by_cases hm : (FindStringSubmatch src.Title).length > 1 <;>
    by_cases hr : src.DateRead = "" <;> cases Parse src.DateRead <;>
    cases Parse src.DateAdded <;> simp [hr, hm]

theorem not_matches_of_getLast (title : String) (h : title.data.getLast? ≠ some ')') :
    ¬ MatchesPattern title := by
  rintro ⟨pre, g1, g2, g3, ht, -, -, -⟩
  apply h
  rw [ht]
  have e : pre ++ (g1 ++ '(' :: (g2 ++ ',' :: ' ' :: '#' :: (g3 ++ [')']))) =
      (pre ++ (g1 ++ '(' :: (g2 ++ ',' :: ' ' :: '#' :: g3))) ++ [')'] := by simp
  rw [e, List.getLast?_append]
  simp

theorem not_matches_of_not_infix (title : String) (h : ¬ ", #".data <:+: title.data) :
    ¬ MatchesPattern title := by
  rintro ⟨pre, g1, g2, g3, ht, -, -, -⟩
  apply h
  refine ⟨pre ++ (g1 ++ '(' :: g2), g3 ++ [')'], ?_⟩
  rw [ht]
  simp

/-- The greedy match with a volume text that may hold `(`: with no `(` in the series text
and no `, #` in the volume text, the match at the head of `p(s, #v)` captures `p`, `s`
and `v`. -/
theorem matchHere_greedy_vol {p s v : List Char} (hp : IsGroup p) (hs : IsGroup s)
    (hv : IsGroup v) (hs' : '(' ∉ s) (hv'' : ¬ [',', ' ', '#'] <:+: v) :
    matchHere (p ++ '(' :: (s ++ ',' :: ' ' :: '#' :: (v ++ [')']))) = some (p, s, v) := by
  unfold matchHere
  apply findSome_dotPlus_greedy p _ hp
  · simp only [lit, if_true, Option.some_bind]
    apply findSome_dotPlus_greedy s _ hs
    · simp only [lit, if_true, Option.some_bind]
      apply findSome_dotPlus_greedy v _ hv
      · simp [lit]
      · intro g' r' hne hr
        cases g' with
        | nil => exact absurd rfl hne
        | cons x g'' =>
          simp only [List.cons_append, List.cons.injEq] at hr
          obtain ⟨-, hr⟩ := hr
          have : r' = [] := by
            have := congrArg List.length hr
            simp at this
            exact List.eq_nil_of_length_eq_zero (by omega)
          simp [this, lit]
    · intro g' r' hne hr
      cases hl : lit [',', ' ', '#'] r' with
      | none => simp [hl]
      | some r4 =>
        simp only [hl, Option.some_bind, List.findSome?_eq_none_iff]
        rintro ⟨a3, r5⟩ h3m
        obtain ⟨⟨ha3, _⟩, hr4⟩ := mem_dotPlus.mp h3m
        cases hl6 : lit [')'] r5 with
        | none => simp [hl6]
        | some r6 =>
          by_cases hr6 : r6 = []
          · exfalso
            have e1 := lit_eq_some.mp hl
            have e6 := lit_eq_some.mp hl6
            subst hr6
            rw [e1, hr4, e6] at hr
            apply hv''
            rcases g' with _ | ⟨x1, _ | ⟨x2, _ | ⟨x3, g4⟩⟩⟩
            · exact absurd rfl hne
            · simp at hr
            · simp at hr
            · refine ⟨g4, a3, ?_⟩
              simp only [List.cons_append, List.cons.injEq, List.nil_append,
                List.append_assoc] at hr
              obtain ⟨-, -, -, hr⟩ := hr
              have h2 : v ++ [')'] = (g4 ++ [',', ' ', '#'] ++ a3) ++ [')'] := by
                simpa using hr
              exact (List.append_cancel_right h2).symm
          · simp [hl6, hr6]
  · intro g' r' hne hr
    cases hl : lit ['('] r' with
    | none => simp [hl]
    | some r2 =>
      simp only [Option.some_bind]
      cases hres : (dotPlus r2).findSome? fun p2 =>
          (lit [',', ' ', '#'] p2.2).bind fun r4 =>
            (dotPlus r4).findSome? fun p3 =>
              (lit [')'] p3.2).bind fun r6 =>
                if r6 = [] then some (p ++ g', p2.1, p3.1) else none with
      | none => rfl
      | some res =>
        exfalso
        obtain ⟨⟨a2, r3⟩, h2m, h3⟩ := List.exists_of_findSome?_eq_some hres
        obtain ⟨-, hs2⟩ := mem_dotPlus.mp h2m
        obtain ⟨r4, hl4, h4⟩ := Option.bind_eq_some.mp h3
        obtain ⟨⟨a3, r5⟩, h3m, h5⟩ := List.exists_of_findSome?_eq_some h4
        obtain ⟨-, hs3⟩ := mem_dotPlus.mp h3m
        obtain ⟨r6, hl6, h6⟩ := Option.bind_eq_some.mp h5
        have hr6 : r6 = [] := by
          by_contra hne6
          simp [hne6] at h6
        have e := lit_eq_some.mp hl
        have e4 := lit_eq_some.mp hl4
        have e6 := lit_eq_some.mp hl6
        simp only at e4 e6 hs2 hs3
        have hr2 : r2 = a2 ++ ',' :: ' ' :: '#' :: (a3 ++ [')']) := by
          rw [hs2, e4, hs3, e6, hr6]
          simp
        cases g' with
        | nil => exact hne rfl
        | cons x g'' =>
          rw [e, hr2] at hr
          simp only [List.cons_append, List.cons.injEq, List.nil_append] at hr
          obtain ⟨-, hr⟩ := hr
          rcases List.append_eq_append_iff.mp hr with ⟨a', -, ha'⟩ | ⟨c', hc', hc''⟩
          · rcases a' with _ | ⟨x1, _ | ⟨x2, _ | ⟨x3, a4⟩⟩⟩
            · simp at ha'
            · simp at ha'
            · simp at ha'
            · apply hv''
              refine ⟨a4 ++ '(' :: a2, a3, ?_⟩
              simp only [List.cons_append, List.cons.injEq] at ha'
              obtain ⟨-, -, -, ha'⟩ := ha'
              have h2 : v ++ [')'] = (a4 ++ '(' :: a2 ++ [',', ' ', '#'] ++ a3) ++ [')'] := by
                rw [ha']
                simp
              exact (List.append_cancel_right h2).symm
          · cases c' with
            | nil => simp at hc''
            | cons y c'' =>
              simp only [List.cons_append, List.cons.injEq] at hc''
              apply hs'
              rw [hc', ← hc''.1]
              simp

/-! ## The title parser (C1 to C3) -/

/-- C1, as stated, fails: titles of the shape `name (series, #vol)` with non-empty parts
on which the parser does not return `name`, `series`, `vol` — a volume text holding `, #`
(`N (A, #B, #1)` gives series `A, #B` and volume `1`), a series text holding `(`
(`N (a(b, #1)` gives title `N (a` and series `b`), a newline in the name (the title of
`a\nb (S, #1)` comes out as `b`, not as the trimmed name), and a newline in the series or
in the volume text (no series is reported at all). -/
theorem title_match_counterexample :
    ((Book.fresh.FromGoodreadsBook
        ⟨"N" ++ " (" ++ "A" ++ ", #" ++ "B, #1" ++ ")", "", "", "2020/01/01", "read"⟩).1.Series
          = some "A, #B" ∧
     (Book.fresh.FromGoodreadsBook
        ⟨"N" ++ " (" ++ "A" ++ ", #" ++ "B, #1" ++ ")", "", "", "2020/01/01", "read"⟩).1.SeriesVolume
          = some "1" ∧
     (Book.fresh.FromGoodreadsBook
        ⟨"N" ++ " (" ++ "A" ++ ", #" ++ "B, #1" ++ ")", "", "", "2020/01/01", "read"⟩).1.Series
          ≠ some "A") ∧
    ((Book.fresh.FromGoodreadsBook
        ⟨"N" ++ " (" ++ "a(b" ++ ", #" ++ "1" ++ ")", "", "", "2020/01/01", "read"⟩).1.Title
          = "N (a" ∧
     (Book.fresh.FromGoodreadsBook
        ⟨"N" ++ " (" ++ "a(b" ++ ", #" ++ "1" ++ ")", "", "", "2020/01/01", "read"⟩).1.Series
          = some "b" ∧
     (Book.fresh.FromGoodreadsBook
        ⟨"N" ++ " (" ++ "a(b" ++ ", #" ++ "1" ++ ")", "", "", "2020/01/01", "read"⟩).1.Series
          ≠ some "a(b") ∧
    ((Book.fresh.FromGoodreadsBook
        ⟨"a\nb" ++ " (" ++ "S" ++ ", #" ++ "1" ++ ")", "", "", "2020/01/01", "read"⟩).1.Title
          = "b" ∧
     (Book.fresh.FromGoodreadsBook
        ⟨"a\nb" ++ " (" ++ "S" ++ ", #" ++ "1" ++ ")", "", "", "2020/01/01", "read"⟩).1.Title
          ≠ TrimSpace "a\nb") ∧
    ((Book.fresh.FromGoodreadsBook
        ⟨"N" ++ " (" ++ "S\nx" ++ ", #" ++ "1" ++ ")", "", "", "2020/01/01", "read"⟩).1.Series
          = none ∧
     (Book.fresh.FromGoodreadsBook
        ⟨"N" ++ " (" ++ "S" ++ ", #" ++ "1\n2" ++ ")", "", "", "2020/01/01", "read"⟩).1.Series
          = none) := by
  decide

/-- C1, amended: for every name, series and vol with series and vol non-empty, such that
the title `name (series, #vol)` holds no newline, series holds no `(` and vol holds no
`, #`, `FromGoodreadsBook` on a fresh `Book` yields `Title` = name trimmed of surrounding
white space, `Series` = series and `SeriesVolume` = vol, both untrimmed. -/
theorem title_match (name series vol author dateRead dateAdded shelf : String)
    (hs : series ≠ "") (hv : vol ≠ "")
    (hnl : '\n' ∉ (name ++ " (" ++ series ++ ", #" ++ vol ++ ")").data)
    (hs' : '(' ∉ series.data) (hv'' : ¬ ", #".data <:+: vol.data) :
    (Book.fresh.FromGoodreadsBook
      ⟨name ++ " (" ++ series ++ ", #" ++ vol ++ ")", author, dateRead, dateAdded, shelf⟩).1.Title
        = TrimSpace name ∧
    (Book.fresh.FromGoodreadsBook
      ⟨name ++ " (" ++ series ++ ", #" ++ vol ++ ")", author, dateRead, dateAdded, shelf⟩).1.Series
        = some series ∧
    (Book.fresh.FromGoodreadsBook
      ⟨name ++ " (" ++ series ++ ", #" ++ vol ++ ")", author, dateRead, dateAdded, shelf⟩).1.SeriesVolume
        = some vol := by
  have hdot : ∀ c ∈ (name ++ " (" ++ series ++ ", #" ++ vol ++ ")").data, dot c = true := by
    intro c hc
    have : c ≠ '\n' := fun e => hnl (e ▸ hc)
    simpa [dot] using this
  simp only [String.data_append, List.mem_append] at hdot
  have hp : IsGroup (name.data ++ [' ']) :=
    ⟨by simp, fun c hc => by
      rcases List.mem_append.mp hc with h | h
      · exact hdot c (Or.inl (Or.inl (Or.inl (Or.inl (Or.inl h)))))
      · rw [List.mem_singleton.mp h]; decide⟩
  have hsg : IsGroup series.data :=
    ⟨fun e => hs (String.ext e), fun c hc => hdot c (Or.inl (Or.inl (Or.inl (Or.inr hc))))⟩
  have hvg : IsGroup vol.data :=
    ⟨fun e => hv (String.ext e), fun c hc => hdot c (Or.inl (Or.inr hc))⟩
  have hm := matchHere_greedy_vol hp hsg hvg hs' hv''
  have hdata : (name ++ " (" ++ series ++ ", #" ++ vol ++ ")").data =
      (name.data ++ [' ']) ++ '(' :: (series.data ++ ',' :: ' ' :: '#' :: (vol.data ++ [')'])) := by
    simp [String.data_append]
  have hne : ∃ c cs, (name.data ++ [' ']) ++
      '(' :: (series.data ++ ',' :: ' ' :: '#' :: (vol.data ++ [')'])) = c :: cs := by
    cases name.data <;> simp
  obtain ⟨c, cs, hcs⟩ := hne
  have hfind : findMatch (name ++ " (" ++ series ++ ", #" ++ vol ++ ")").data =
      some (c :: cs, name.data ++ [' '], series.data, vol.data) := by
    rw [hdata, hcs, findMatch, ← hcs, hm]
  have h := FromGoodreadsBook_of_match Book.fresh
    ⟨name ++ " (" ++ series ++ ", #" ++ vol ++ ")", author, dateRead, dateAdded, shelf⟩ hfind
  refine ⟨?_, h.2.1, h.2.2⟩
  rw [h.1]
  simp only [TrimSpace]
  rw [trim_append_space]

/-- C1, witness: `Mockingjay (The Hunger Games, #3)` gives title `Mockingjay`, series
`The Hunger Games` and volume `3`; and a volume text with a `(`, as in
`N (S, #1 (of 3)`, is kept whole. -/
theorem title_match_witness :
    ((Book.fresh.FromGoodreadsBook ⟨"Mockingjay (The Hunger Games, #3)",
        "Suzanne Collins", "2021/15/06", "2020/01/01", "read"⟩).1.Title = "Mockingjay" ∧
     (Book.fresh.FromGoodreadsBook ⟨"Mockingjay (The Hunger Games, #3)",
        "Suzanne Collins", "2021/15/06", "2020/01/01", "read"⟩).1.Series
        = some "The Hunger Games" ∧
     (Book.fresh.FromGoodreadsBook ⟨"Mockingjay (The Hunger Games, #3)",
        "Suzanne Collins", "2021/15/06", "2020/01/01", "read"⟩).1.SeriesVolume = some "3") ∧
    ((Book.fresh.FromGoodreadsBook ⟨"N (S, #1 (of 3)", "x", "", "2020/01/01", "read"⟩).1.Title
        = "N" ∧
     (Book.fresh.FromGoodreadsBook ⟨"N (S, #1 (of 3)", "x", "", "2020/01/01", "read"⟩).1.Series
        = some "S" ∧
     (Book.fresh.FromGoodreadsBook
        ⟨"N (S, #1 (of 3)", "x", "", "2020/01/01", "read"⟩).1.SeriesVolume
        = some "1 (of 3") := by
  have h := title_match "Mockingjay" "The Hunger Games" "3" "Suzanne Collins" "2021/15/06"
    "2020/01/01" "read" (by decide) (by decide) (by decide) (by decide) (by decide)
  have h' := title_match "N" "S" "1 (of 3" "x" "" "2020/01/01" "read"
    (by decide) (by decide) (by decide) (by decide) (by decide)
  have e : TrimSpace "Mockingjay" = "Mockingjay" := by decide
  have e' : TrimSpace "N" = "N" := by decide
  rw [e] at h
  rw [e'] at h'
  exact ⟨h, h'⟩

/-- C2: a title that does not match the pattern — in particular one that does not end in
`)` or holds no `, #` — is copied to `Title` unchanged, `Series` and `SeriesVolume` stay
absent, and the error returned is the same whatever the title is. -/
theorem title_no_match (src : GoodreadsBook)
    (h : ¬ MatchesPattern src.Title ∨ src.Title.data.getLast? ≠ some ')' ∨
      ¬ ", #".data <:+: src.Title.data) :
    (Book.fresh.FromGoodreadsBook src).1.Title = src.Title ∧
    (Book.fresh.FromGoodreadsBook src).1.Series = none ∧
    (Book.fresh.FromGoodreadsBook src).1.SeriesVolume = none ∧
    ∀ title : String, (Book.fresh.FromGoodreadsBook { src with Title := title }).2 =
      (Book.fresh.FromGoodreadsBook src).2 := by
  have hno : ¬ MatchesPattern src.Title := by
    rcases h with h | h | h
    · exact h
    · exact not_matches_of_getLast _ h
    · exact not_matches_of_not_infix _ h
  have hfind : findMatch src.Title.data = none := by
    rw [← findMatch_isSome_iff] at hno
    simpa using hno
  obtain ⟨h1, h2, h3⟩ := FromGoodreadsBook_of_no_match Book.fresh src hfind
  refine ⟨h1, h2, h3, ?_⟩
  intro title
  rw [FromGoodreadsBook_error, FromGoodreadsBook_error]

/-- C2, witness: the title `1984`. -/
theorem title_no_match_witness :
    (Book.fresh.FromGoodreadsBook ⟨"1984", "George Orwell", "", "2020/01/01", "read"⟩).1.Title
      = "1984" ∧
    (Book.fresh.FromGoodreadsBook ⟨"1984", "George Orwell", "", "2020/01/01", "read"⟩).1.Series
      = none ∧
    (Book.fresh.FromGoodreadsBook
      ⟨"1984", "George Orwell", "", "2020/01/01", "read"⟩).1.SeriesVolume = none ∧
    ∀ title : String,
      (Book.fresh.FromGoodreadsBook
        { (⟨"1984", "George Orwell", "", "2020/01/01", "read"⟩ : GoodreadsBook) with
          Title := title }).2 =
      (Book.fresh.FromGoodreadsBook ⟨"1984", "George Orwell", "", "2020/01/01", "read"⟩).2 :=
  title_no_match ⟨"1984", "George Orwell", "", "2020/01/01", "read"⟩
    (Or.inr (Or.inl (by decide)))

/-- C3: after `FromGoodreadsBook` on a fresh `Book`, error or not, `Series` is present
exactly when `SeriesVolume` is, and each is present exactly when the title matches the
series pattern. -/
theorem series_co_presence (src : GoodreadsBook) :
    ((Book.fresh.FromGoodreadsBook src).1.Series.isSome = true ↔
      (Book.fresh.FromGoodreadsBook src).1.SeriesVolume.isSome = true) ∧
    ((Book.fresh.FromGoodreadsBook src).1.Series.isSome = true ↔ MatchesPattern src.Title) ∧
    ((Book.fresh.FromGoodreadsBook src).1.SeriesVolume.isSome = true ↔
      MatchesPattern src.Title) := by
  rw [← findMatch_isSome_iff]
  cases hf : findMatch src.Title.data with
  | none =>
    obtain ⟨_, h2, h3⟩ := FromGoodreadsBook_of_no_match Book.fresh src hf
    simp only [h2, h3]
    simp [Book.fresh]
  | some g =>
    obtain ⟨m, g1, g2, g3⟩ := g
    obtain ⟨_, h2, h3⟩ := FromGoodreadsBook_of_match Book.fresh src hf
    simp [h2, h3]

/-! ## The date fields (C8 to C10) -/

/-- C8: with an empty `Date Read`, `FromGoodreadsBook` on a fresh `Book` succeeds exactly
when `Date Added` parses and leaves `ReadAt` absent; and whenever it succeeds, `ReadAt` is
present exactly when `Date Read` is non-empty. -/
theorem optional_read_date (src : GoodreadsBook) :
    (src.DateRead = "" →
      ((Book.fresh.FromGoodreadsBook src).2 = none ↔ ∃ t, Parse src.DateAdded = .ok t) ∧
      (Book.fresh.FromGoodreadsBook src).1.ReadAt = none) ∧
    ((Book.fresh.FromGoodreadsBook src).2 = none →
      ((Book.fresh.FromGoodreadsBook src).1.ReadAt.isSome = true ↔ src.DateRead ≠ "")) := by
  rw [FromGoodreadsBook_error, FromGoodreadsBook_ReadAt]
  by_cases hr : src.DateRead = ""
  · cases Parse src.DateAdded <;> simp [hr, Book.fresh]
  · cases Parse src.DateRead <;> cases Parse src.DateAdded <;> simp [hr, Book.fresh]

/-- C8, witness: a row with an empty `Date Read` and a `Date Added` that parses. -/
theorem optional_read_date_witness :
    (Book.fresh.FromGoodreadsBook ⟨"1984", "George Orwell", "", "2020/01/01", "to-read"⟩).2
      = none ∧
    (Book.fresh.FromGoodreadsBook
      ⟨"1984", "George Orwell", "", "2020/01/01", "to-read"⟩).1.ReadAt = none :=
  ⟨((optional_read_date ⟨"1984", "George Orwell", "", "2020/01/01", "to-read"⟩).1 rfl).1.mpr
      ⟨⟨2020, 1, 1, 0, 1, 1, 0⟩, rfl⟩,
    ((optional_read_date ⟨"1984", "George Orwell", "", "2020/01/01", "to-read"⟩).1 rfl).2⟩

/-- C9: `FromGoodreadsBook` returns an error exactly when `Date Read` is non-empty and
does not parse, or `Date Added` does not parse; the receiver and the title, author and
shelf of the row have no influence on the error returned. -/
theorem fails_iff_dates (b : Book) (src : GoodreadsBook) :
    ((b.FromGoodreadsBook src).2 ≠ none ↔
      (src.DateRead ≠ "" ∧ ∃ err, Parse src.DateRead = .error err) ∨
        ∃ err, Parse src.DateAdded = .error err) ∧
    ∀ (b' : Book) (title author shelf : String),
      (b'.FromGoodreadsBook { src with Title := title, Author := author, Shelf := shelf }).2 =
        (b.FromGoodreadsBook src).2 := by
  constructor
  · rw [FromGoodreadsBook_error]
    by_cases hr : src.DateRead = "" <;> cases Parse src.DateRead <;>
      cases Parse src.DateAdded <;> simp [hr]
  · intro b' title author shelf
    rw [FromGoodreadsBook_error, FromGoodreadsBook_error]

/-- C10, the code at the failing inputs: `2021/31/02` (31 February when read as
YYYY/DD/MM) and `2021/00/00` are accepted as `Date Added` and as `Date Read`, and stored as
the times 00:02:31 and 00:00:00 of 1 January 2021, because the layout `2006/05/04` reads
its second field as a second and its third as a minute; an empty `Date Added` is
rejected. -/
theorem date_validation_failing_input :
    Book.fresh.FromGoodreadsBook ⟨"1984", "George Orwell", "2021/31/02", "2021/31/02", "read"⟩
      = ({ Title := "1984", Series := none, SeriesVolume := none, Author := "George Orwell",
           ReadAt := some ⟨2021, 1, 1, 0, 2, 31, 0⟩, AddedAt := ⟨2021, 1, 1, 0, 2, 31, 0⟩,
           Shelf := "read" }, none) ∧
    Book.fresh.FromGoodreadsBook ⟨"1984", "George Orwell", "2021/00/00", "2021/00/00", "read"⟩
      = ({ Title := "1984", Series := none, SeriesVolume := none, Author := "George Orwell",
           ReadAt := some ⟨2021, 1, 1, 0, 0, 0, 0⟩, AddedAt := ⟨2021, 1, 1, 0, 0, 0, 0⟩,
           Shelf := "read" }, none) ∧
    (Book.fresh.FromGoodreadsBook ⟨"1984", "George Orwell", "", "", "read"⟩).2
      = some ⟨"2006/05/04", ""⟩ := by
  decide

/-! ## Lemmas on the insertion sort -/

theorem insertRev_length (lt : Book → Book → Bool) (x : Book) (rp : List Book) :
    (insertRev lt x rp).length = rp.length + 1 := by
  induction rp with
  | nil => rfl
  | cons y r ih => by_cases h : lt x y = true <;> simp [insertRev, h, ih]

theorem insertRev_perm (lt : Book → Book → Bool) (x : Book) (rp : List Book) :
    (insertRev lt x rp).Perm (x :: rp) := by
  induction rp with
  | nil => exact List.Perm.refl _
  | cons y r ih =>
    by_cases h : lt x y = true
    · simp only [insertRev, h, if_true]
      exact ((List.Perm.cons y ih).trans (List.Perm.swap x y r))
    · simp [insertRev, h]

theorem swap_adjacent (pre s : List Book) (x y : Book) :
    swap (pre ++ y :: x :: s) (pre.length + 1) pre.length = pre ++ x :: y :: s := by
  have h1 : (pre ++ y :: x :: s)[pre.length + 1]? = some x := by
    rw [List.getElem?_append_right (by omega)]
    simp
  have h2 : (pre ++ y :: x :: s)[pre.length]? = some y := by
    rw [List.getElem?_append_right (by omega)]
    simp
  simp only [swap, h1, h2]
  rw [List.set_append_right _ _ (by omega), List.set_append_right _ _ (by omega)]
  simp

/-- The inner loop, entered at the position of `x`, moves `x` as `insertRev` does. -/
theorem insertLoop_eq (lt : Book → Book → Bool) (x : Book) (rp s : List Book) :
    insertLoop lt (rp.reverse ++ x :: s) rp.length = (insertRev lt x rp).reverse ++ s := by
  induction rp generalizing s with
  | nil => simp [insertLoop, insertRev]
  | cons y r ih =>
    have hd : (y :: r).reverse ++ x :: s = r.reverse ++ y :: x :: s := by simp
    have hl : (y :: r).length = r.reverse.length + 1 := by simp
    have h1 : (r.reverse ++ y :: x :: s)[r.reverse.length + 1]? = some x := by
      rw [List.getElem?_append_right (by omega)]
      simp
    have h2 : (r.reverse ++ y :: x :: s)[r.reverse.length]? = some y := by
      rw [List.getElem?_append_right (by omega)]
      simp
    rw [hd, hl, insertLoop]
    simp only [h1, h2]
    by_cases h : lt x y = true
    · simp only [h, if_true, insertRev, swap_adjacent]
      have := ih (y :: s)
      simp only [List.length_reverse] at this ⊢
      rw [this]
      simp
    · simp [h, insertRev]

/-- The outer loop inserts the remaining elements one after the other. -/
theorem outerLoop_eq (lt : Book → Book → Bool) (rest rp : List Book) :
    outerLoop lt (rp.reverse ++ rest) rp.length rest.length =
      (rest.foldl (fun acc x => insertRev lt x acc) rp).reverse := by
  induction rest generalizing rp with
  | nil => simp [outerLoop]
  | cons x rest ih =>
    simp only [List.length_cons, outerLoop, insertLoop_eq, List.foldl_cons]
    have := ih (insertRev lt x rp)
    rw [insertRev_length] at this
    exact this

/-- Go's insertion sort as a fold of `insertRev`. -/
theorem insertionSortLessFunc_eq (lt : Book → Book → Bool) (data : List Book) :
    insertionSortLessFunc lt data =
      (data.foldl (fun acc x => insertRev lt x acc) []).reverse := by
  cases data with
  | nil => simp [insertionSortLessFunc, outerLoop]
  | cons x rest =>
    have := outerLoop_eq lt rest [x]
    simpa [insertionSortLessFunc, insertRev] using this

theorem foldl_insertRev_perm (lt : Book → Book → Bool) (rest rp : List Book) :
    (rest.foldl (fun acc x => insertRev lt x acc) rp).Perm (rp ++ rest) := by
  induction rest generalizing rp with
  | nil => simp
  | cons x rest ih =>
    simp only [List.foldl_cons]
    refine (ih _).trans ?_
    refine ((insertRev_perm lt x rp).append_right rest).trans ?_
    simpa using (@List.perm_middle _ x rp rest).symm

theorem insertionSortLessFunc_perm (lt : Book → Book → Bool) (data : List Book) :
    (insertionSortLessFunc lt data).Perm data := by
  rw [insertionSortLessFunc_eq]
  exact (List.reverse_perm _).trans (by simpa using foldl_insertRev_perm lt data [])

/-- Inserting into a prefix without inversions leaves it without inversions, when `lt` is a
transitive ordering on the elements involved. -/
theorem insertRev_sorted {lt : Book → Book → Bool} {L : List Book}
    (hlt : TransitiveOrdering lt L) (x : Book) (hx : x ∈ L) (rp : List Book)
    (hrp : ∀ y ∈ rp, y ∈ L) (hs : rp.Pairwise (fun a b => lt a b = false)) :
    (insertRev lt x rp).Pairwise (fun a b => lt a b = false) := by
  obtain ⟨hirr, htr, hneg⟩ := hlt
  induction rp with
  | nil => simp [insertRev]
  | cons y r ih =>
    have hy : y ∈ L := hrp y (List.mem_cons_self _ _)
    have hr : ∀ z ∈ r, z ∈ L := fun z hz => hrp z (List.mem_cons_of_mem _ hz)
    obtain ⟨hyr, hrs⟩ := List.pairwise_cons.mp hs
    by_cases h : lt x y = true
    · simp only [insertRev, h, if_true]
      refine List.pairwise_cons.mpr ⟨?_, ih hr hrs⟩
      intro z hz
      rcases List.mem_cons.mp ((insertRev_perm lt x r).mem_iff.mp hz) with rfl | hz
      · cases hyz : lt y z with
        | false => rfl
        | true =>
          have := htr z hx y hy z hx h hyz
          rw [hirr z hx] at this
          exact absurd this (by simp)
      · exact hyr z hz
    · have h' : lt x y = false := by simpa using h
      simp only [insertRev, h, if_false]
      refine List.pairwise_cons.mpr ⟨?_, hs⟩
      intro z hz
      rcases List.mem_cons.mp hz with rfl | hz
      · exact h'
      · exact hneg x hx y hy z (hr z hz) h' (hyr z hz)

theorem foldl_insertRev_sorted {lt : Book → Book → Bool} {L : List Book}
    (hlt : TransitiveOrdering lt L) (rest rp : List Book)
    (hrest : ∀ y ∈ rest, y ∈ L) (hrp : ∀ y ∈ rp, y ∈ L)
    (hs : rp.Pairwise (fun a b => lt a b = false)) :
    (rest.foldl (fun acc x => insertRev lt x acc) rp).Pairwise (fun a b => lt a b = false) := by
  induction rest generalizing rp with
  | nil => simpa using hs
  | cons x rest ih =>
    simp only [List.foldl_cons]
    have hx : x ∈ L := hrest x (List.mem_cons_self _ _)
    refine ih _ (fun y hy => hrest y (List.mem_cons_of_mem _ hy)) ?_ ?_
    · intro y hy
      rcases List.mem_cons.mp ((insertRev_perm lt x rp).mem_iff.mp hy) with rfl | hy
      · exact hx
      · exact hrp y hy
    · exact insertRev_sorted hlt x hx rp hrp hs

/-- Go's insertion sort meets the contract of the sort. -/
theorem insertionSortLessFunc_contract : SortContract insertionSortLessFunc := by
  intro lt data hlt
  refine ⟨insertionSortLessFunc_perm lt data, ?_⟩
  rw [insertionSortLessFunc_eq, List.pairwise_reverse]
  exact foldl_insertRev_sorted hlt data [] (fun y hy => hy) (by simp) List.Pairwise.nil

/-! ## Lemmas on the order of times -/

theorem lexLt_irrefl (l : List Nat) : lexLt l l = false := by
  induction l with
  | nil => rfl
  | cons a l ih => simp [lexLt, ih]

theorem lexLt_trans {a b c : List Nat} (h1 : lexLt a b = true) (h2 : lexLt b c = true) :
    lexLt a c = true := by
  induction a generalizing b c with
  | nil => simp [lexLt] at h1
  | cons x as ih =>
    cases b with
    | nil => simp [lexLt] at h1
    | cons y bs =>
      cases c with
      | nil => simp [lexLt] at h2
      | cons z cs =>
        simp only [lexLt, Bool.or_eq_true, decide_eq_true_eq, Bool.and_eq_true, beq_iff_eq]
          at h1 h2 ⊢
        rcases h1 with h1 | ⟨h1, h1'⟩ <;> rcases h2 with h2 | ⟨h2, h2'⟩
        · left; omega
        · left; omega
        · left; omega
        · right; exact ⟨by omega, ih h1' h2'⟩

theorem lexLt_negtrans {a b c : List Nat} (hab : a.length = b.length)
    (hbc : b.length = c.length) (h1 : lexLt a b = false) (h2 : lexLt b c = false) :
    lexLt a c = false := by
  induction a generalizing b c with
  | nil => simp [lexLt]
  | cons x as ih =>
    cases b with
    | nil => simp at hab
    | cons y bs =>
      cases c with
      | nil => simp at hbc
      | cons z cs =>
        simp only [List.length_cons, Nat.add_right_cancel_iff] at hab hbc
        simp only [lexLt, Bool.or_eq_false_iff, decide_eq_false_iff_not, Bool.and_eq_false_iff,
          beq_eq_false_iff_ne, ne_eq] at h1 h2 ⊢
        refine ⟨by omega, ?_⟩
        by_cases hxz : x = z
        · right
          have hxy : x = y := by omega
          have hyz : y = z := by omega
          rcases h1.2 with h | h
          · exact absurd hxy h
          · rcases h2.2 with h' | h'
            · exact absurd hyz h'
            · exact ih hab hbc h h'
        · left; exact hxz

theorem less_of_dated {a b : Book} {t u : Time} (ha : a.ReadAt = some t)
    (hb : b.ReadAt = some u) : less a b = lexLt t.fields u.fields := by
  simp [less, ha, hb, Time.Before]

/-- On books that all have a read date, the comparator of `main` is a transitive ordering. -/
theorem less_transitiveOrdering (data : List Book) (h : ∀ b ∈ data, b.ReadAt ≠ none) :
    TransitiveOrdering less data := by
  have key : ∀ b ∈ data, ∃ t, b.ReadAt = some t := fun b hb =>
    Option.ne_none_iff_exists'.mp (h b hb)
  refine ⟨?_, ?_, ?_⟩
  · intro a ha
    obtain ⟨t, ht⟩ := key a ha
    rw [less_of_dated ht ht, lexLt_irrefl]
  · intro a ha b hb c hc
    obtain ⟨t, ht⟩ := key a ha
    obtain ⟨u, hu⟩ := key b hb
    obtain ⟨v, hv⟩ := key c hc
    rw [less_of_dated ht hu, less_of_dated hu hv, less_of_dated ht hv]
    exact lexLt_trans
  · intro a ha b hb c hc
    obtain ⟨t, ht⟩ := key a ha
    obtain ⟨u, hu⟩ := key b hb
    obtain ⟨v, hv⟩ := key c hc
    rw [less_of_dated ht hu, less_of_dated hu hv, less_of_dated ht hv]
    exact lexLt_negtrans rfl rfl

/-! ## Lemmas on the row loop and the partition -/

theorem rowLoop_ok_iff (rows : List GoodreadsBook) (acc books : List Book) :
    rowLoop rows acc = .ok books ↔
      (∀ r ∈ rows, (Book.fresh.FromGoodreadsBook r).2 = none) ∧
        books = acc ++ rows.map (fun r => (Book.fresh.FromGoodreadsBook r).1) := by
  induction rows generalizing acc with
  | nil => simp [rowLoop, eq_comm]
  | cons v rest ih =>
    unfold rowLoop
    rcases hv : Book.fresh.FromGoodreadsBook v with ⟨book, _ | err⟩
    · simp [ih, hv]
    · simp [hv]

theorem rowLoop_error_iff (rows : List GoodreadsBook) (acc : List Book) (e : ParseError) :
    rowLoop rows acc = .error e ↔
      ∃ pre r post, rows = pre ++ r :: post ∧
        (∀ x ∈ pre, (Book.fresh.FromGoodreadsBook x).2 = none) ∧
        (Book.fresh.FromGoodreadsBook r).2 = some e := by
  induction rows generalizing acc with
  | nil => simp [rowLoop]
  | cons v rest ih =>
    unfold rowLoop
    rcases hv : Book.fresh.FromGoodreadsBook v with ⟨book, _ | err⟩
    · simp only [ih]
      constructor
      · rintro ⟨pre, r, post, rfl, hpre, hr⟩
        refine ⟨v :: pre, r, post, rfl, ?_, hr⟩
        intro x hx
        rcases List.mem_cons.mp hx with rfl | hx
        · rw [hv]
        · exact hpre x hx
      · rintro ⟨pre, r, post, hrows, hpre, hr⟩
        cases pre with
        | nil =>
          simp only [List.nil_append, List.cons.injEq] at hrows
          rw [← hrows.1, hv] at hr
          simp at hr
        | cons p pre =>
          simp only [List.cons_append, List.cons.injEq] at hrows
          exact ⟨pre, r, post, hrows.2, fun x hx => hpre x (List.mem_cons_of_mem _ hx), hr⟩
    · simp only [Except.error.injEq]
      constructor
      · rintro rfl
        exact ⟨[], v, rest, rfl, by simp, by rw [hv]⟩
      · rintro ⟨pre, r, post, hrows, hpre, hr⟩
        cases pre with
        | nil =>
          simp only [List.nil_append, List.cons.injEq] at hrows
          rw [← hrows.1, hv] at hr
          simpa using hr
        | cons p pre =>
          simp only [List.cons_append, List.cons.injEq] at hrows
          have := hpre p (List.mem_cons_self _ _)
          rw [← hrows.1, hv] at this
          simp at this

theorem foldl_place (books : List Book) (o : Output) :
    books.foldl place o =
      ⟨o.Read ++ books.filter (fun v => decide (v.Shelf = "read")),
        o.ToRead ++ books.filter (fun v => decide (v.Shelf = "to-read"))⟩ := by
  induction books generalizing o with
  | nil => simp
  | cons v rest ih =>
    simp only [List.foldl_cons, ih, place]
    by_cases h1 : v.Shelf = "read"
    · have h2 : ¬ v.Shelf = "to-read" := by rw [h1]; decide
      simp [h1, List.filter_cons]
    · by_cases h2 : v.Shelf = "to-read"
      · simp [h2, List.filter_cons]
      · simp [h1, h2, List.filter_cons]

theorem partition_eq (books : List Book) :
    partition books =
      ⟨books.filter (fun v => decide (v.Shelf = "read")),
        books.filter (fun v => decide (v.Shelf = "to-read"))⟩ := by
  simp [partition, foldl_place]

/-! ## Lemmas on `time.Parse` -/

/-- What `parseChunks` accepts, chunk by chunk. -/
theorem parseChunks_eq_some {value : List Char} {t : Time} :
    parseChunks value = some t ↔
      ∃ year v1 v2 sec v3 v4 min, getLongYear value = some (year, v1) ∧ skip v1 = some v2 ∧
        getnum v2 = some (sec, v3) ∧ sec < 60 ∧ skip (getFraction v3).2 = some v4 ∧
        getnum v4 = some (min, []) ∧ min < 60 ∧
        t = ⟨year, 1, 1, 0, min, sec, (getFraction v3).1⟩ := by
  constructor
  · intro h
    rcases h1 : getLongYear value with _ | ⟨year, v1⟩
    · simp [parseChunks, h1] at h
    rcases h2 : skip v1 with _ | v2
    · simp [parseChunks, h1, h2] at h
    rcases h3 : getnum v2 with _ | ⟨sec, v3⟩
    · simp [parseChunks, h1, h2, h3] at h
    by_cases hs : 60 ≤ sec
    · simp [parseChunks, h1, h2, h3, hs] at h
    rcases h4 : skip (getFraction v3).2 with _ | v4
    · simp [parseChunks, h1, h2, h3, hs, h4] at h
    rcases h5 : getnum v4 with _ | ⟨min, v5⟩
    · simp [parseChunks, h1, h2, h3, hs, h4, h5] at h
    by_cases hm : 60 ≤ min
    · simp [parseChunks, h1, h2, h3, hs, h4, h5, hm] at h
    by_cases hv : v5 = []
    · subst hv
      simp [parseChunks, h1, h2, h3, hs, h4, h5, hm] at h
      exact ⟨year, v1, v2, sec, v3, v4, min, rfl, h2, h3, by omega, h4, h5, by omega, h.symm⟩
    · simp [parseChunks, h1, h2, h3, hs, h4, h5, hm, hv] at h
  · rintro ⟨year, v1, v2, sec, v3, v4, min, h1, h2, h3, hs, h4, h5, hm, rfl⟩
    have hs' : ¬ 60 ≤ sec := by omega
    have hm' : ¬ 60 ≤ min := by omega
    simp [parseChunks, h1, h2, h3, hs', h4, h5, hm']

theorem Parse_eq_ok {value : String} {t : Time} :
    Parse value = .ok t ↔ parseChunks value.data = some t := by
  unfold Parse
  cases parseChunks value.data <;> simp

/-- A parsed time lies on 1 January, in the first hour. -/
theorem Parse_shape {value : String} {t : Time} (h : Parse value = .ok t) :
    t.Month = 1 ∧ t.Day = 1 ∧ t.Hour = 0 := by
  obtain ⟨year, v1, v2, sec, v3, v4, min, -, -, -, -, -, -, -, rfl⟩ :=
    parseChunks_eq_some.mp (Parse_eq_ok.mp h)
  exact ⟨rfl, rfl, rfl⟩

/-- On a date text of the plain shape `dddd/dd/dd`, the year is the first field, the minute
the third and the second the second. -/
theorem Parse_plain {y1 y2 y3 y4 d1 d2 m1 m2 : Char} {t : Time}
    (h : Parse ⟨[y1, y2, y3, y4, '/', d1, d2, '/', m1, m2]⟩ = .ok t) :
    readKey t = [digitsVal [y1, y2, y3, y4], digitsVal [m1, m2], digitsVal [d1, d2], 0] := by
  obtain ⟨year, v1, v2, sec, v3, v4, min, h1, h2, h3, -, h4, h5, -, rfl⟩ :=
    parseChunks_eq_some.mp (Parse_eq_ok.mp h)
  simp only [getLongYear] at h1
  split at h1
  · simp only [Option.some.injEq, Prod.mk.injEq] at h1
    obtain ⟨rfl, rfl⟩ := h1
    simp only [skip, Option.some.injEq] at h2
    subst h2
    simp only [getnum] at h3
    split at h3
    · simp only [Option.some.injEq, Prod.mk.injEq] at h3
      obtain ⟨rfl, rfl⟩ := h3
      have hf : getFraction ['/', m1, m2] = (0, ['/', m1, m2]) := by
        simp [getFraction, commaOrPeriod]
      rw [hf] at h4
      simp only [skip, Option.some.injEq] at h4
      subst h4
      simp only [getnum] at h5
      split at h5
      · simp only [Option.some.injEq, Prod.mk.injEq] at h5
        obtain ⟨rfl, -⟩ := h5
        simp [readKey, hf, digitsVal]
        omega
      · simp at h5
    · simp at h3
  · simp at h1

/-! ## Lemmas on the books of the row loop -/

/-- A book made from a row without error has a read date exactly when the row has one. -/
theorem ReadAt_eq_none_iff (r : GoodreadsBook)
    (h : (Book.fresh.FromGoodreadsBook r).2 = none) :
    (Book.fresh.FromGoodreadsBook r).1.ReadAt = none ↔ r.DateRead = "" := by
  rw [FromGoodreadsBook_error] at h
  rw [FromGoodreadsBook_ReadAt]
  by_cases hr : r.DateRead = ""
  · simp [hr, Book.fresh]
  · cases hp : Parse r.DateRead <;> simp [hr, hp] at h ⊢

/-- The read date of a book made from a row without error is the parse of `Date Read`. -/
theorem ReadAt_eq_parse (r : GoodreadsBook) (h : (Book.fresh.FromGoodreadsBook r).2 = none)
    (hr : r.DateRead ≠ "") :
    ∃ t, Parse r.DateRead = .ok t ∧ (Book.fresh.FromGoodreadsBook r).1.ReadAt = some t := by
  rw [FromGoodreadsBook_error] at h
  rw [FromGoodreadsBook_ReadAt]
  cases hp : Parse r.DateRead <;> simp [hr, hp] at h ⊢

theorem sortedBooks_ok_iff (pdq : (Book → Book → Bool) → List Book → List Book)
    (rows : List GoodreadsBook) (sorted : List Book) :
    sortedBooks pdq rows = .ok sorted ↔
      (∀ r ∈ rows, (Book.fresh.FromGoodreadsBook r).2 = none) ∧
        sorted = sortSlice pdq less
          (rows.map (fun r => (Book.fresh.FromGoodreadsBook r).1)) := by
  unfold sortedBooks
  cases h : rowLoop rows [] with
  | error e =>
    constructor
    · intro h'
      cases h'
    · rintro ⟨hall, -⟩
      have := (rowLoop_ok_iff rows [] _).mpr ⟨hall, rfl⟩
      rw [h] at this
      cases this
  | ok books =>
    obtain ⟨hall, rfl⟩ := (rowLoop_ok_iff rows [] books).mp h
    constructor
    · intro h'
      simp only [Except.ok.injEq] at h'
      exact ⟨hall, by simpa using h'.symm⟩
    · rintro ⟨-, rfl⟩
      simp

theorem insertRev_absent (x : Book) (hx : x.ReadAt = none) (rp : List Book) :
    insertRev less x rp = rp ++ [x] := by
  induction rp with
  | nil => rfl
  | cons y r ih => simp [insertRev, less, hx, ih]

/-- While the books still to insert are "dated ones first, absent ones after", the
processed prefix keeps every absent book before every dated one. -/
theorem foldl_insertRev_absentFirst (rest rp : List Book)
    (hrest : rest.Pairwise (fun a b => a.ReadAt = none → b.ReadAt = none))
    (hrp : rp.Pairwise (fun a b => b.ReadAt ≠ none → a.ReadAt ≠ none))
    (hdated : ∀ x ∈ rest, x.ReadAt ≠ none → ∀ y ∈ rp, y.ReadAt ≠ none) :
    (rest.foldl (fun acc x => insertRev less x acc) rp).Pairwise
      (fun a b => b.ReadAt ≠ none → a.ReadAt ≠ none) := by
  induction rest generalizing rp with
  | nil => simpa using hrp
  | cons x rest ih =>
    simp only [List.foldl_cons]
    obtain ⟨hx, hrest'⟩ := List.pairwise_cons.mp hrest
    by_cases hxd : x.ReadAt = none
    · rw [insertRev_absent x hxd]
      refine ih _ hrest' ?_ ?_
      · rw [List.pairwise_append]
        refine ⟨hrp, by simp, ?_⟩
        intro a _ b hb hbd
        rw [List.mem_singleton.mp hb] at hbd
        exact absurd hxd hbd
      · intro z hz hzd
        exact absurd (hx z hz hxd) hzd
    · have hall : ∀ y ∈ insertRev less x rp, y.ReadAt ≠ none := by
        intro y hy
        rcases List.mem_cons.mp ((insertRev_perm less x rp).mem_iff.mp hy) with rfl | hy
        · exact hxd
        · exact hdated x (List.mem_cons_self _ _) hxd y hy
      refine ih _ hrest' ?_ (fun _ _ _ y hy => hall y hy)
      exact List.pairwise_of_forall_mem_list (fun a ha _ _ _ => hall a ha)

theorem sortSlice_short (pdq : (Book → Book → Bool) → List Book → List Book)
    (lt : Book → Book → Bool) (data : List Book) (h : data.length ≤ 12) :
    sortSlice pdq lt data = insertionSortLessFunc lt data := by
  simp [sortSlice, h]

theorem sublist_insertRev (lt : Book → Book → Bool) (x : Book) (rp : List Book) :
    rp.Sublist (insertRev lt x rp) := by
  induction rp with
  | nil => simp
  | cons y r ih =>
    by_cases h : lt x y = true
    · simp only [insertRev, h, if_true]
      exact ih.cons₂ y
    · simp only [insertRev, h, if_false]
      exact List.sublist_cons_self x (y :: r)

theorem sublist_foldl_insertRev (lt : Book → Book → Bool) (rest rp : List Book) :
    rp.Sublist (rest.foldl (fun acc x => insertRev lt x acc) rp) := by
  induction rest generalizing rp with
  | nil => simp
  | cons x rest ih =>
    simp only [List.foldl_cons]
    exact (sublist_insertRev lt x rp).trans (ih _)

/-- A dated book entering a prefix that is "absent first" leaves it so when the prefix has
no absent book, or holds a dated book not after the new one. -/
theorem insertRev_keeps_absentFirst (x : Book) (hx : x.ReadAt ≠ none) (rp : List Book)
    (hrp : rp.Pairwise (fun a b => b.ReadAt ≠ none → a.ReadAt ≠ none))
    (h : (∀ n ∈ rp, n.ReadAt ≠ none) ∨ ∃ y ∈ rp, y.ReadAt ≠ none ∧ less x y = false) :
    (insertRev less x rp).Pairwise (fun a b => b.ReadAt ≠ none → a.ReadAt ≠ none) := by
  induction rp with
  | nil => simp [insertRev]
  | cons y r ih =>
    obtain ⟨hyr, hr⟩ := List.pairwise_cons.mp hrp
    by_cases hl : less x y = true
    · simp only [insertRev, hl, if_true]
      have hyd : y.ReadAt ≠ none := by
        rcases h with h | ⟨z, hz, hzd, hzl⟩
        · exact h y (List.mem_cons_self _ _)
        · rcases List.mem_cons.mp hz with rfl | hz
          · rw [hl] at hzl
            exact absurd hzl (by simp)
          · exact hyr z hz hzd
      refine List.pairwise_cons.mpr ⟨fun _ _ _ => hyd, ih hr ?_⟩
      rcases h with h | ⟨z, hz, hzd, hzl⟩
      · exact Or.inl (fun n hn => h n (List.mem_cons_of_mem _ hn))
      · rcases List.mem_cons.mp hz with rfl | hz
        · rw [hl] at hzl
          exact absurd hzl (by simp)
        · exact Or.inr ⟨z, hz, hzd, hzl⟩
    · simp only [insertRev, hl, if_false]
      exact List.pairwise_cons.mpr ⟨fun _ _ _ => hx, hrp⟩

/-- A dated book that the comparator puts before every dated book of the prefix goes to
the very front, in front of the absent books. -/
theorem insertRev_breaks_absentFirst (x : Book) (hx : x.ReadAt ≠ none) (rp : List Book)
    (hn : ∃ n ∈ rp, n.ReadAt = none)
    (h : ∀ y ∈ rp, y.ReadAt ≠ none → less x y = true) :
    ¬ (insertRev less x rp).Pairwise (fun a b => b.ReadAt ≠ none → a.ReadAt ≠ none) := by
  have hall : ∀ y ∈ rp, less x y = true := by
    intro y hy
    by_cases hyd : y.ReadAt = none
    · unfold less
      rw [hyd]
      cases x.ReadAt <;> rfl
    · exact h y hy hyd
  have heq : insertRev less x rp = rp ++ [x] := by
    clear hn h
    induction rp with
    | nil => rfl
    | cons y r ih =>
      simp only [insertRev, hall y (List.mem_cons_self _ _), if_true, List.cons_append]
      rw [ih (fun z hz => hall z (List.mem_cons_of_mem _ hz))]
  rw [heq, List.pairwise_append]
  rintro ⟨-, -, hcross⟩
  obtain ⟨n, hnm, hnn⟩ := hn
  exact hcross n hnm x (List.mem_singleton.mpr rfl) hx hnn

/-- The insertion sort with the comparator of `main` ends "absent first" exactly when
every dated book that enters after an absent one finds a dated book not after it. -/
theorem foldl_insertRev_absentFirst_iff (rest rp : List Book)
    (hrp : rp.Pairwise (fun a b => b.ReadAt ≠ none → a.ReadAt ≠ none)) :
    (rest.foldl (fun acc x => insertRev less x acc) rp).Pairwise
        (fun a b => b.ReadAt ≠ none → a.ReadAt ≠ none) ↔
      ∀ pre x post, rest = pre ++ x :: post → x.ReadAt ≠ none →
        (∃ n, (n ∈ rp ∨ n ∈ pre) ∧ n.ReadAt = none) →
        ∃ y, (y ∈ rp ∨ y ∈ pre) ∧ y.ReadAt ≠ none ∧ less x y = false := by
  induction rest generalizing rp with
  | nil =>
    simp only [List.foldl_nil]
    refine ⟨fun _ pre x post h => ?_, fun _ => hrp⟩
    cases pre <;> simp at h
  | cons x rest ih =>
    simp only [List.foldl_cons]
    have hmem : ∀ z, z ∈ insertRev less x rp ↔ z = x ∨ z ∈ rp := fun z =>
      (insertRev_perm less x rp).mem_iff.trans List.mem_cons
    have hstep : (∀ pre x' post, x :: rest = pre ++ x' :: post → x'.ReadAt ≠ none →
          (∃ n, (n ∈ rp ∨ n ∈ pre) ∧ n.ReadAt = none) →
          ∃ y, (y ∈ rp ∨ y ∈ pre) ∧ y.ReadAt ≠ none ∧ less x' y = false) ↔
        ((x.ReadAt ≠ none → (∃ n ∈ rp, n.ReadAt = none) →
            ∃ y ∈ rp, y.ReadAt ≠ none ∧ less x y = false) ∧
          ∀ pre x' post, rest = pre ++ x' :: post → x'.ReadAt ≠ none →
            (∃ n, (n ∈ insertRev less x rp ∨ n ∈ pre) ∧ n.ReadAt = none) →
            ∃ y, (y ∈ insertRev less x rp ∨ y ∈ pre) ∧ y.ReadAt ≠ none ∧
              less x' y = false) := by
      constructor
      · intro hC
        constructor
        · intro hxd ⟨n, hn, hnn⟩
          obtain ⟨y, hy, hyd, hyl⟩ := hC [] x rest rfl hxd ⟨n, Or.inl hn, hnn⟩
          rcases hy with hy | hy
          · exact ⟨y, hy, hyd, hyl⟩
          · simp at hy
        · intro pre x' post hrest hxd ⟨n, hn, hnn⟩
          have hn' : n ∈ rp ∨ n ∈ x :: pre := by
            rcases hn with hn | hn
            · rcases (hmem n).mp hn with rfl | hn
              · exact Or.inr (List.mem_cons_self _ _)
              · exact Or.inl hn
            · exact Or.inr (List.mem_cons_of_mem _ hn)
          obtain ⟨y, hy, hyd, hyl⟩ :=
            hC (x :: pre) x' post (by rw [hrest]; rfl) hxd ⟨n, hn', hnn⟩
          refine ⟨y, ?_, hyd, hyl⟩
          rcases hy with hy | hy
          · exact Or.inl ((hmem y).mpr (Or.inr hy))
          · rcases List.mem_cons.mp hy with rfl | hy
            · exact Or.inl ((hmem y).mpr (Or.inl rfl))
            · exact Or.inr hy
      · rintro ⟨hH, hC⟩ pre x' post hrest hxd ⟨n, hn, hnn⟩
        cases pre with
        | nil =>
          simp only [List.nil_append, List.cons.injEq] at hrest
          obtain ⟨rfl, -⟩ := hrest
          rcases hn with hn | hn
          · obtain ⟨y, hy, hyd, hyl⟩ := hH hxd ⟨n, hn, hnn⟩
            exact ⟨y, Or.inl hy, hyd, hyl⟩
          · simp at hn
        | cons p pre =>
          simp only [List.cons_append, List.cons.injEq] at hrest
          obtain ⟨rfl, hrest⟩ := hrest
          have hn' : n ∈ insertRev less x rp ∨ n ∈ pre := by
            rcases hn with hn | hn
            · exact Or.inl ((hmem n).mpr (Or.inr hn))
            · rcases List.mem_cons.mp hn with rfl | hn
              · exact Or.inl ((hmem n).mpr (Or.inl rfl))
              · exact Or.inr hn
          obtain ⟨y, hy, hyd, hyl⟩ := hC pre x' post hrest hxd ⟨n, hn', hnn⟩
          refine ⟨y, ?_, hyd, hyl⟩
          rcases hy with hy | hy
          · rcases (hmem y).mp hy with rfl | hy
            · exact Or.inr (List.mem_cons_self _ _)
            · exact Or.inl hy
          · exact Or.inr (List.mem_cons_of_mem _ hy)
    rw [hstep]
    by_cases hxd : x.ReadAt = none
    · have hrp' : (insertRev less x rp).Pairwise
          (fun a b => b.ReadAt ≠ none → a.ReadAt ≠ none) := by
        rw [insertRev_absent x hxd, List.pairwise_append]
        refine ⟨hrp, by simp, ?_⟩
        intro a _ b hb hbd
        rw [List.mem_singleton.mp hb] at hbd
        exact absurd hxd hbd
      rw [ih _ hrp']
      exact ⟨fun h => ⟨fun hx => absurd hxd hx, h⟩, fun h => h.2⟩
    · by_cases hH : (∃ n ∈ rp, n.ReadAt = none) →
          ∃ y ∈ rp, y.ReadAt ≠ none ∧ less x y = false
      · have hrp' := insertRev_keeps_absentFirst x hxd rp hrp (by
          by_cases hn : ∃ n ∈ rp, n.ReadAt = none
          · exact Or.inr (hH hn)
          · left
            intro n hnm hnn
            exact hn ⟨n, hnm, hnn⟩)
        rw [ih _ hrp']
        exact ⟨fun h => ⟨fun _ => hH, h⟩, fun h => h.2⟩
      · have hn : ∃ n ∈ rp, n.ReadAt = none := by
          by_contra hno
          exact hH (fun h => absurd h hno)
        have hall : ∀ y ∈ rp, y.ReadAt ≠ none → less x y = true := by
          intro y hy hyd
          cases hl : less x y with
          | true => rfl
          | false => exact absurd (fun _ => ⟨y, hy, hyd, hl⟩) hH
        have hbroken := insertRev_breaks_absentFirst x hxd rp hn hall
        constructor
        · intro h
          exact absurd (h.sublist (sublist_foldl_insertRev less rest _)) hbroken
        · rintro ⟨h, -⟩
          exact absurd (h hxd) hH

theorem lexLt_fields_eq {t u : Time} (ht : t.Month = 1 ∧ t.Day = 1 ∧ t.Hour = 0)
    (hu : u.Month = 1 ∧ u.Day = 1 ∧ u.Hour = 0) :
    lexLt u.fields t.fields = lexLt (readKey u) (readKey t) := by
  obtain ⟨h1, h2, h3⟩ := ht
  obtain ⟨h4, h5, h6⟩ := hu
  simp [Time.fields, readKey, lexLt, h1, h2, h3, h4, h5, h6]

/-! ## The sort and the partition (C4 to C7) -/

/-- C4, as stated, fails on its own witness: for the rows with read dates `2021/15/06`,
empty, `2020/01/01` (shelf `read`) the `Read` output is the 2020 book, then the book
without a read date, then the 2021 book: the book with the absent date is not first.  (The
slice has three elements, so the sort for long slices is not consulted.) -/
theorem absent_first_counterexample :
    run insertionSortLessFunc
        [⟨"A", "x", "2021/15/06", "2020/01/01", "read"⟩,
         ⟨"B", "x", "", "2020/01/01", "read"⟩,
         ⟨"C", "x", "2020/01/01", "2020/01/01", "read"⟩] =
      .ok ⟨[⟨"C", none, none, "x", some ⟨2020, 1, 1, 0, 1, 1, 0⟩, ⟨2020, 1, 1, 0, 1, 1, 0⟩, "read"⟩,
            ⟨"B", none, none, "x", none, ⟨2020, 1, 1, 0, 1, 1, 0⟩, "read"⟩,
            ⟨"A", none, none, "x", some ⟨2021, 1, 1, 0, 6, 15, 0⟩, ⟨2020, 1, 1, 0, 1, 1, 0⟩, "read"⟩],
           []⟩ ∧
    ¬ AbsentFirst
        [⟨"C", none, none, "x", some ⟨2020, 1, 1, 0, 1, 1, 0⟩, ⟨2020, 1, 1, 0, 1, 1, 0⟩, "read"⟩,
         ⟨"B", none, none, "x", none, ⟨2020, 1, 1, 0, 1, 1, 0⟩, "read"⟩,
         ⟨"A", none, none, "x", some ⟨2021, 1, 1, 0, 6, 15, 0⟩, ⟨2020, 1, 1, 0, 1, 1, 0⟩, "read"⟩] := by
  refine ⟨rfl, ?_⟩
  unfold AbsentFirst
  decide

/-- C4, amended: for every input of at most 12 rows that all parse, every book with absent
`ReadAt` comes before every book with present `ReadAt` in the sorted sequence exactly when
every row with a read date that follows a row without one has before it, in the input, a
row whose read date is not later than its own; and then the same holds in `Read` and in
`ToRead`. -/
theorem absent_first_iff_anchored (pdq : (Book → Book → Bool) → List Book → List Book)
    (rows : List GoodreadsBook) (sorted : List Book) (hlen : rows.length ≤ 12)
    (hsorted : sortedBooks pdq rows = .ok sorted) :
    (AbsentFirst sorted ↔
      DatedAnchored (rows.map (fun r => (Book.fresh.FromGoodreadsBook r).1))) ∧
    (DatedAnchored (rows.map (fun r => (Book.fresh.FromGoodreadsBook r).1)) →
      AbsentFirst (partition sorted).Read ∧ AbsentFirst (partition sorted).ToRead) ∧
    run pdq rows = .ok (partition sorted) := by
  have hrun : run pdq rows = .ok (partition sorted) := by simp [run, hsorted]
  obtain ⟨-, rfl⟩ := (sortedBooks_ok_iff pdq rows sorted).mp hsorted
  have hiff : AbsentFirst (sortSlice pdq less
        (rows.map (fun r => (Book.fresh.FromGoodreadsBook r).1))) ↔
      DatedAnchored (rows.map (fun r => (Book.fresh.FromGoodreadsBook r).1)) := by
    rw [sortSlice_short _ _ _ (by simpa using hlen), insertionSortLessFunc_eq]
    unfold AbsentFirst DatedAnchored
    rw [List.pairwise_reverse, foldl_insertRev_absentFirst_iff _ [] List.Pairwise.nil]
    constructor
    · intro h pre x post hb hx ⟨n, hn, hnn⟩
      obtain ⟨y, hy, hyd, hyl⟩ := h pre x post hb hx ⟨n, Or.inr hn, hnn⟩
      rcases hy with hy | hy
      · simp at hy
      · exact ⟨y, hy, hyd, hyl⟩
    · intro h pre x post hb hx ⟨n, hn, hnn⟩
      rcases hn with hn | hn
      · simp at hn
      · obtain ⟨y, hy, hyd, hyl⟩ := h pre x post hb hx ⟨n, hn, hnn⟩
        exact ⟨y, Or.inr hy, hyd, hyl⟩
  refine ⟨hiff, ?_, hrun⟩
  intro hd
  have hmain := hiff.mpr hd
  constructor
  · rw [partition_eq]
    exact List.Pairwise.filter _ hmain
  · rw [partition_eq]
    exact List.Pairwise.filter _ hmain

/-- C4, witness: read dates `2020/01/01`, empty, `2021/15/06`, in that order: a dated row
follows the row without a date, and the book without a read date still comes out first,
then the 2020 book, then the 2021 book. -/
theorem absent_first_iff_anchored_witness :
    sortedBooks insertionSortLessFunc
        [⟨"A", "x", "2020/01/01", "2020/01/01", "read"⟩,
         ⟨"B", "x", "", "2020/01/01", "read"⟩,
         ⟨"C", "x", "2021/15/06", "2020/01/01", "read"⟩] =
      .ok [⟨"B", none, none, "x", none, ⟨2020, 1, 1, 0, 1, 1, 0⟩, "read"⟩,
           ⟨"A", none, none, "x", some ⟨2020, 1, 1, 0, 1, 1, 0⟩, ⟨2020, 1, 1, 0, 1, 1, 0⟩, "read"⟩,
           ⟨"C", none, none, "x", some ⟨2021, 1, 1, 0, 6, 15, 0⟩, ⟨2020, 1, 1, 0, 1, 1, 0⟩, "read"⟩] ∧
    AbsentFirst
      [⟨"B", none, none, "x", none, ⟨2020, 1, 1, 0, 1, 1, 0⟩, "read"⟩,
       ⟨"A", none, none, "x", some ⟨2020, 1, 1, 0, 1, 1, 0⟩, ⟨2020, 1, 1, 0, 1, 1, 0⟩, "read"⟩,
       ⟨"C", none, none, "x", some ⟨2021, 1, 1, 0, 6, 15, 0⟩, ⟨2020, 1, 1, 0, 1, 1, 0⟩, "read"⟩] ∧
    DatedAnchored
      ([⟨"A", "x", "2020/01/01", "2020/01/01", "read"⟩,
        ⟨"B", "x", "", "2020/01/01", "read"⟩,
        ⟨"C", "x", "2021/15/06", "2020/01/01", "read"⟩].map
          (fun r => (Book.fresh.FromGoodreadsBook r).1)) := by
  have haf : AbsentFirst
      [⟨"B", none, none, "x", none, ⟨2020, 1, 1, 0, 1, 1, 0⟩, "read"⟩,
       ⟨"A", none, none, "x", some ⟨2020, 1, 1, 0, 1, 1, 0⟩, ⟨2020, 1, 1, 0, 1, 1, 0⟩, "read"⟩,
       ⟨"C", none, none, "x", some ⟨2021, 1, 1, 0, 6, 15, 0⟩, ⟨2020, 1, 1, 0, 1, 1, 0⟩, "read"⟩] := by
    unfold AbsentFirst
    decide
  exact ⟨rfl, haf, (absent_first_iff_anchored insertionSortLessFunc
    [⟨"A", "x", "2020/01/01", "2020/01/01", "read"⟩,
     ⟨"B", "x", "", "2020/01/01", "read"⟩,
     ⟨"C", "x", "2021/15/06", "2020/01/01", "read"⟩] _ (by decide) rfl).1.mp haf⟩

/-- C5: when every row parses and has a non-empty `Date Read`, and the sort for long slices
meets its contract, the sorted sequence, `Read` and `ToRead` are in non-decreasing order of
read date, the order being lexicographic on year, minute, second and fraction; every read
date is the parse of a row's `Date Read`, and on a date text `dddd/dd/dd` the year is the
first field, the minute the third field and the second the second field. -/
theorem sorted_by_read_date (pdq : (Book → Book → Bool) → List Book → List Book)
    (hpdq : SortContract pdq) (rows : List GoodreadsBook) (sorted : List Book)
    (hsorted : sortedBooks pdq rows = .ok sorted) (hread : ∀ r ∈ rows, r.DateRead ≠ "") :
    sorted.Pairwise ReadNoLater ∧ (partition sorted).Read.Pairwise ReadNoLater ∧
      (partition sorted).ToRead.Pairwise ReadNoLater ∧
      run pdq rows = .ok (partition sorted) ∧
      (∀ b ∈ sorted, ∃ r ∈ rows, ∃ t, Parse r.DateRead = .ok t ∧ b.ReadAt = some t) ∧
      (∀ (y1 y2 y3 y4 d1 d2 m1 m2 : Char) (t : Time),
        Parse ⟨[y1, y2, y3, y4, '/', d1, d2, '/', m1, m2]⟩ = .ok t →
          readKey t =
            [digitsVal [y1, y2, y3, y4], digitsVal [m1, m2], digitsVal [d1, d2], 0]) := by
  have hrun : run pdq rows = .ok (partition sorted) := by simp [run, hsorted]
  obtain ⟨hall, rfl⟩ := (sortedBooks_ok_iff pdq rows sorted).mp hsorted
  have hparse : ∀ b ∈ rows.map (fun r => (Book.fresh.FromGoodreadsBook r).1),
      ∃ r ∈ rows, ∃ t, Parse r.DateRead = .ok t ∧ b.ReadAt = some t := by
    intro b hb
    obtain ⟨r, hr, rfl⟩ := List.mem_map.mp hb
    obtain ⟨t, ht, hb'⟩ := ReadAt_eq_parse r (hall r hr) (hread r hr)
    exact ⟨r, hr, t, ht, hb'⟩
  have hdated : ∀ b ∈ rows.map (fun r => (Book.fresh.FromGoodreadsBook r).1),
      b.ReadAt ≠ none := by
    intro b hb
    obtain ⟨_, _, t, _, ht⟩ := hparse b hb
    simp [ht]
  have hord := less_transitiveOrdering _ hdated
  have hcontract :
      (sortSlice pdq less (rows.map (fun r => (Book.fresh.FromGoodreadsBook r).1))).Perm
        (rows.map (fun r => (Book.fresh.FromGoodreadsBook r).1)) ∧
      (sortSlice pdq less (rows.map (fun r => (Book.fresh.FromGoodreadsBook r).1))).Pairwise
        (fun a b => less b a = false) := by
    unfold sortSlice
    split
    · exact insertionSortLessFunc_contract less _ hord
    · exact hpdq less _ hord
  obtain ⟨hperm, hpair⟩ := hcontract
  have hmain : (sortSlice pdq less
      (rows.map (fun r => (Book.fresh.FromGoodreadsBook r).1))).Pairwise ReadNoLater := by
    refine List.Pairwise.imp_of_mem ?_ hpair
    intro a b ha hb hba
    obtain ⟨_, _, t, ht, hat⟩ := hparse a (hperm.mem_iff.mp ha)
    obtain ⟨_, _, u, hu, hbu⟩ := hparse b (hperm.mem_iff.mp hb)
    refine ⟨t, u, hat, hbu, ?_⟩
    rw [less_of_dated hbu hat, lexLt_fields_eq (Parse_shape ht) (Parse_shape hu)] at hba
    exact hba
  refine ⟨hmain, ?_, ?_, hrun, ?_, ?_⟩
  · rw [partition_eq]
    exact List.Pairwise.filter _ hmain
  · rw [partition_eq]
    exact List.Pairwise.filter _ hmain
  · intro b hb
    exact hparse b (hperm.mem_iff.mp hb)
  · intro y1 y2 y3 y4 d1 d2 m1 m2 t ht
    exact Parse_plain ht

/-- C5, witness: read dates `2021/15/06`, `2020/01/01`, `2021/14/06` come out in the
order `2020/01/01`, `2021/14/06`, `2021/15/06`. -/
theorem sorted_by_read_date_witness :
    sortedBooks insertionSortLessFunc
        [⟨"A", "x", "2021/15/06", "2020/01/01", "read"⟩,
         ⟨"B", "x", "2020/01/01", "2020/01/01", "read"⟩,
         ⟨"C", "x", "2021/14/06", "2020/01/01", "read"⟩] =
      .ok [⟨"B", none, none, "x", some ⟨2020, 1, 1, 0, 1, 1, 0⟩, ⟨2020, 1, 1, 0, 1, 1, 0⟩, "read"⟩,
           ⟨"C", none, none, "x", some ⟨2021, 1, 1, 0, 6, 14, 0⟩, ⟨2020, 1, 1, 0, 1, 1, 0⟩, "read"⟩,
           ⟨"A", none, none, "x", some ⟨2021, 1, 1, 0, 6, 15, 0⟩, ⟨2020, 1, 1, 0, 1, 1, 0⟩, "read"⟩] ∧
    ([⟨"B", none, none, "x", some ⟨2020, 1, 1, 0, 1, 1, 0⟩, ⟨2020, 1, 1, 0, 1, 1, 0⟩, "read"⟩,
      ⟨"C", none, none, "x", some ⟨2021, 1, 1, 0, 6, 14, 0⟩, ⟨2020, 1, 1, 0, 1, 1, 0⟩, "read"⟩,
      ⟨"A", none, none, "x", some ⟨2021, 1, 1, 0, 6, 15, 0⟩, ⟨2020, 1, 1, 0, 1, 1, 0⟩, "read"⟩]
      : List Book).Pairwise ReadNoLater :=
  ⟨rfl, (sorted_by_read_date insertionSortLessFunc insertionSortLessFunc_contract
    [⟨"A", "x", "2021/15/06", "2020/01/01", "read"⟩,
     ⟨"B", "x", "2020/01/01", "2020/01/01", "read"⟩,
     ⟨"C", "x", "2021/14/06", "2020/01/01", "read"⟩] _ rfl (by decide)).1⟩

/-- C6: `Read` is exactly the subsequence of the books with shelf `read` and `ToRead`
the subsequence of those with shelf `to-read`, both in the order of the sorted sequence; a
book with shelf `read` is in `Read` and never in `ToRead`, and a book with any other
shelf than these two is in neither. -/
theorem partition_correct (books : List Book) :
    (partition books).Read = books.filter (fun v => decide (v.Shelf = "read")) ∧
    (partition books).ToRead = books.filter (fun v => decide (v.Shelf = "to-read")) ∧
    (partition books).Read.Sublist books ∧ (partition books).ToRead.Sublist books ∧
    (∀ v, v.Shelf = "read" →
      (v ∈ (partition books).Read ↔ v ∈ books) ∧ v ∉ (partition books).ToRead) ∧
    (∀ v, v.Shelf ≠ "read" → v.Shelf ≠ "to-read" →
      v ∉ (partition books).Read ∧ v ∉ (partition books).ToRead) := by
  rw [partition_eq]
  refine ⟨rfl, rfl, List.filter_sublist _, List.filter_sublist _, ?_, ?_⟩
  · intro v hv
    have h2 : ¬ v.Shelf = "to-read" := by rw [hv]; decide
    simp [List.mem_filter, hv]
  · intro v h1 h2
    simp [List.mem_filter, h1, h2]

/-- C7: the run returns an error, and so no `Output`, exactly when `FromGoodreadsBook`
fails on some row; the error is that of the first failing row in input order; and it
returns an `Output` exactly when no row fails. -/
theorem abort_on_first_bad_row (pdq : (Book → Book → Bool) → List Book → List Book)
    (rows : List GoodreadsBook) :
    ((∃ e, run pdq rows = .error e) ↔
      ∃ r ∈ rows, (Book.fresh.FromGoodreadsBook r).2 ≠ none) ∧
    (∀ e, run pdq rows = .error e ↔
      ∃ pre r post, rows = pre ++ r :: post ∧
        (∀ x ∈ pre, (Book.fresh.FromGoodreadsBook x).2 = none) ∧
        (Book.fresh.FromGoodreadsBook r).2 = some e) ∧
    ((∃ output, run pdq rows = .ok output) ↔
      ∀ r ∈ rows, (Book.fresh.FromGoodreadsBook r).2 = none) := by
  have herr : ∀ e, run pdq rows = .error e ↔ rowLoop rows [] = .error e := by
    intro e
    unfold run sortedBooks
    cases rowLoop rows [] <;> simp
  have hok : (∃ output, run pdq rows = .ok output) ↔ ∃ books, rowLoop rows [] = .ok books := by
    unfold run sortedBooks
    cases rowLoop rows [] <;> simp
  have h3 : (∃ output, run pdq rows = .ok output) ↔
      ∀ r ∈ rows, (Book.fresh.FromGoodreadsBook r).2 = none := by
    rw [hok]
    constructor
    · rintro ⟨books, hb⟩
      exact ((rowLoop_ok_iff rows [] books).mp hb).1
    · intro hall
      exact ⟨_, (rowLoop_ok_iff rows [] _).mpr ⟨hall, rfl⟩⟩
  refine ⟨?_, fun e => (herr e).trans (rowLoop_error_iff rows [] e), h3⟩
  constructor
  · rintro ⟨e, he⟩
    by_contra hno
    have hall : ∀ r ∈ rows, (Book.fresh.FromGoodreadsBook r).2 = none := by
      intro r hr
      by_contra hne
      exact hno ⟨r, hr, hne⟩
    obtain ⟨output, ho⟩ := h3.mpr hall
    rw [ho] at he
    cases he
  · rintro ⟨r, hr, hne⟩
    cases hrun : run pdq rows with
    | error e => exact ⟨e, rfl⟩
    | ok output =>
      exact absurd (h3.mp ⟨output, hrun⟩ r hr) hne

/-- C7, witness: the rows valid, malformed `Date Added`, valid give the error of the
second row and no output. -/
theorem abort_on_first_bad_row_witness :
    run insertionSortLessFunc
        [⟨"A", "x", "2021/15/06", "2020/01/01", "read"⟩,
         ⟨"B", "x", "", "01/01/2020", "read"⟩,
         ⟨"C", "x", "2020/01/01", "2020/01/01", "read"⟩] =
      .error ⟨"2006/05/04", "01/01/2020"⟩ :=
  ((abort_on_first_bad_row insertionSortLessFunc _).2.1 _).mpr
    ⟨[⟨"A", "x", "2021/15/06", "2020/01/01", "read"⟩], ⟨"B", "x", "", "01/01/2020", "read"⟩,
      [⟨"C", "x", "2020/01/01", "2020/01/01", "read"⟩], rfl, by decide, by decide⟩

/-! ## Lemmas on digits and on formatting -/

theorem isDigit_bounds {c : Char} (h : isDigit c = true) : 48 ≤ c.toNat ∧ c.toNat ≤ 57 := by
  simp only [isDigit, Bool.and_eq_true, decide_eq_true_eq] at h
  obtain ⟨h1, h2⟩ := h
  rw [Char.le_def] at h1 h2
  have e1 : ('0' : Char).val.toNat = 48 := by decide
  have e2 : ('9' : Char).val.toNat = 57 := by decide
  have h1' := UInt32.le_def.mp h1
  have h2' := UInt32.le_def.mp h2
  simp only [Char.toNat]
  constructor
  · have := Fin.le_def.mp h1'
    simpa [e1] using this
  · have := Fin.le_def.mp h2'
    simpa [e2] using this

theorem digitVal_le {c : Char} (h : isDigit c = true) : digitVal c ≤ 9 := by
  obtain ⟨h1, h2⟩ := isDigit_bounds h
  have e : '0'.toNat = 48 := by decide
  simp only [digitVal, e]
  omega

theorem digitChar_digitVal {c : Char} (h : isDigit c = true) : digitChar (digitVal c) = c := by
  obtain ⟨h1, h2⟩ := isDigit_bounds h
  have e : '0'.toNat = 48 := by decide
  simp only [digitChar, digitVal, e]
  rw [Nat.add_sub_cancel' h1]
  exact Char.ofNat_toNat c

theorem isDigit_ne_slash {c : Char} (h : isDigit c = true) : c ≠ '/' := by
  rintro rfl
  exact absurd h (by decide)

/-- Two digits written back by `appendInt`. -/
theorem appendInt_two {a b : Char} (ha : isDigit a = true) (hb : isDigit b = true) :
    appendInt (digitVal a * 10 + digitVal b) 2 = [a, b] := by
  have h1 := digitVal_le ha
  have h2 := digitVal_le hb
  have hlt : digitVal a * 10 + digitVal b < 100 := by omega
  have e1 : (digitVal a * 10 + digitVal b) / 10 = digitVal a := by omega
  have e2 : (digitVal a * 10 + digitVal b) % 10 = digitVal b := by omega
  simp only [appendInt, hlt, and_self, if_true, e1, e2, digitChar_digitVal ha,
    digitChar_digitVal hb]

/-- Four digits written back by `appendInt`. -/
theorem appendInt_four {a b c d : Char} (ha : isDigit a = true) (hb : isDigit b = true)
    (hc : isDigit c = true) (hd : isDigit d = true) :
    appendInt (digitsVal [a, b, c, d]) 4 = [a, b, c, d] := by
  have h1 := digitVal_le ha
  have h2 := digitVal_le hb
  have h3 := digitVal_le hc
  have h4 := digitVal_le hd
  have hv : digitsVal [a, b, c, d] =
      digitVal a * 1000 + digitVal b * 100 + digitVal c * 10 + digitVal d := by
    simp only [digitsVal, List.foldl_cons, List.foldl_nil]
    omega
  have hlt : digitsVal [a, b, c, d] < 10000 := by omega
  have e1 : digitsVal [a, b, c, d] / 1000 = digitVal a := by omega
  have e2 : digitsVal [a, b, c, d] / 100 % 10 = digitVal b := by omega
  have e3 : digitsVal [a, b, c, d] / 10 % 10 = digitVal c := by omega
  have e4 : digitsVal [a, b, c, d] % 10 = digitVal d := by omega
  have hw : ¬ ((4 : Nat) = 2 ∧ digitsVal [a, b, c, d] < 100) := by omega
  simp only [appendInt, hw, if_false, hlt, and_self, if_true, e1, e2, e3, e4,
    digitChar_digitVal ha, digitChar_digitVal hb, digitChar_digitVal hc, digitChar_digitVal hd]

theorem getnum_cons {a b : Char} {rest r : List Char} {n : Nat}
    (h : getnum (a :: b :: rest) = some (n, r)) :
    isDigit a = true ∧ isDigit b = true ∧ n = digitVal a * 10 + digitVal b ∧ r = rest := by
  simp only [getnum] at h
  split at h
  · rename_i hd
    simp only [Bool.and_eq_true] at hd
    simp only [Option.some.injEq, Prod.mk.injEq] at h
    exact ⟨hd.1, hd.2, h.1.symm, h.2.symm⟩
  · simp at h

/-- What the parser accepts and returns on a text of the shape `dddd/dd/dd`. -/
theorem Parse_plain_ok {y1 y2 y3 y4 d1 d2 m1 m2 : Char} {t : Time}
    (h : Parse ⟨[y1, y2, y3, y4, '/', d1, d2, '/', m1, m2]⟩ = .ok t) :
    (isDigit y1 = true ∧ isDigit y2 = true ∧ isDigit y3 = true ∧ isDigit y4 = true) ∧
    (isDigit d1 = true ∧ isDigit d2 = true) ∧ (isDigit m1 = true ∧ isDigit m2 = true) ∧
    t = ⟨digitsVal [y1, y2, y3, y4], 1, 1, 0, digitVal m1 * 10 + digitVal m2,
      digitVal d1 * 10 + digitVal d2, 0⟩ := by
  obtain ⟨year, v1, v2, sec, v3, v4, min, h1, h2, h3, -, h4, h5, -, rfl⟩ :=
    parseChunks_eq_some.mp (Parse_eq_ok.mp h)
  simp only [getLongYear] at h1
  split at h1
  · rename_i hy
    simp only [Bool.and_eq_true] at hy
    simp only [Option.some.injEq, Prod.mk.injEq] at h1
    obtain ⟨rfl, rfl⟩ := h1
    simp only [skip, Option.some.injEq] at h2
    subst h2
    obtain ⟨hd1, hd2, rfl, rfl⟩ := getnum_cons h3
    have hf : getFraction ['/', m1, m2] = (0, ['/', m1, m2]) := by
      simp [getFraction, commaOrPeriod]
    rw [hf] at h4
    simp only [skip, Option.some.injEq] at h4
    subst h4
    obtain ⟨hm1, hm2, rfl, -⟩ := getnum_cons h5
    exact ⟨⟨hy.1.1.1, hy.1.1.2, hy.1.2, hy.2⟩, ⟨hd1, hd2⟩, ⟨hm1, hm2⟩, by rw [hf]⟩
  · simp at h1

theorem formatChunks_slash (t : Time) :
    formatChunks "2006/05/04".data t =
      appendInt t.Year 4 ++ '/' :: (appendInt t.Second 2 ++ '/' :: (appendInt t.Minute 2 ++ [])) :=
  rfl

theorem formatChunks_dash (t : Time) :
    formatChunks "2006-05-04".data t =
      appendInt t.Year 4 ++ '-' :: (appendInt t.Second 2 ++ '-' :: (appendInt t.Minute 2 ++ [])) :=
  rfl

/-- The date field a successful `FromGoodreadsBook` writes last. -/
theorem FromGoodreadsBook_AddedAt (b : Book) (src : GoodreadsBook)
    (h : (b.FromGoodreadsBook src).2 = none) :
    Parse src.DateAdded = .ok (b.FromGoodreadsBook src).1.AddedAt := by
  unfold Book.FromGoodreadsBook at h ⊢
  by_cases hm : (FindStringSubmatch src.Title).length > 1 <;>
    by_cases hr : src.DateRead = "" <;> cases hp : Parse src.DateRead <;>
    cases hq : Parse src.DateAdded <;> simp [hr, hm, hp, hq] at h ⊢

/-! ## The parsed date and its text (C11 to C13) -/

/-- C11, the code at the failing input: `2021/15/06` is accepted, as the claim says, but
the value stored as `ReadAt` and `AddedAt` is 1 January 2021, 00:06:15, not 15 June 2021;
and whatever text the parser accepts, the time it returns lies on 1 January, because the
layout `2006/05/04` names a second and a minute where a day and a month were meant. -/
theorem parsed_date_failing_input :
    Parse "2021/15/06" = .ok ⟨2021, 1, 1, 0, 6, 15, 0⟩ ∧
    (Book.fresh.FromGoodreadsBook
      ⟨"1984", "George Orwell", "2021/15/06", "2021/15/06", "read"⟩).1.ReadAt
        = some ⟨2021, 1, 1, 0, 6, 15, 0⟩ ∧
    (Book.fresh.FromGoodreadsBook
      ⟨"1984", "George Orwell", "2021/15/06", "2021/15/06", "read"⟩).1.AddedAt
        = ⟨2021, 1, 1, 0, 6, 15, 0⟩ ∧
    (∀ (value : String) (t : Time), Parse value = .ok t → t.Month = 1 ∧ t.Day = 1) := by
  refine ⟨rfl, by decide, by decide, ?_⟩
  intro value t h
  exact ⟨(Parse_shape h).1, (Parse_shape h).2.1⟩

/-- C12: on an accepted text of the shape `dddd/dd/dd`, formatting the parsed time with
the input layout gives the text back, `date.MarshalText` gives it with every `/`
replaced by `-`, and no other text of that shape parses to the same time. -/
theorem date_round_trip (y1 y2 y3 y4 d1 d2 m1 m2 : Char) (t : Time)
    (h : Parse ⟨[y1, y2, y3, y4, '/', d1, d2, '/', m1, m2]⟩ = .ok t) :
    t.Format layout = ⟨[y1, y2, y3, y4, '/', d1, d2, '/', m1, m2]⟩ ∧
    date.MarshalText t =
      ⟨[y1, y2, y3, y4, '/', d1, d2, '/', m1, m2].map (fun c => if c = '/' then '-' else c)⟩ ∧
    (∀ z1 z2 z3 z4 e1 e2 n1 n2 : Char,
      Parse ⟨[z1, z2, z3, z4, '/', e1, e2, '/', n1, n2]⟩ = .ok t →
        [z1, z2, z3, z4, '/', e1, e2, '/', n1, n2] = [y1, y2, y3, y4, '/', d1, d2, '/', m1, m2]) := by
  have key : ∀ {z1 z2 z3 z4 e1 e2 n1 n2 : Char},
      Parse ⟨[z1, z2, z3, z4, '/', e1, e2, '/', n1, n2]⟩ = .ok t →
      formatChunks "2006/05/04".data t = [z1, z2, z3, z4, '/', e1, e2, '/', n1, n2] := by
    intro z1 z2 z3 z4 e1 e2 n1 n2 hz
    obtain ⟨⟨hy1, hy2, hy3, hy4⟩, ⟨hd1, hd2⟩, ⟨hm1, hm2⟩, rfl⟩ := Parse_plain_ok hz
    rw [formatChunks_slash]
    simp only [appendInt_four hy1 hy2 hy3 hy4, appendInt_two hd1 hd2, appendInt_two hm1 hm2]
    rfl
  refine ⟨?_, ?_, ?_⟩
  · simp only [Time.Format, layout]
    rw [key h]
  · obtain ⟨⟨hy1, hy2, hy3, hy4⟩, ⟨hd1, hd2⟩, ⟨hm1, hm2⟩, rfl⟩ := Parse_plain_ok h
    simp only [date.MarshalText, Time.Format]
    rw [formatChunks_dash]
    simp only [appendInt_four hy1 hy2 hy3 hy4, appendInt_two hd1 hd2, appendInt_two hm1 hm2]
    simp [isDigit_ne_slash hy1, isDigit_ne_slash hy2, isDigit_ne_slash hy3,
      isDigit_ne_slash hy4, isDigit_ne_slash hd1, isDigit_ne_slash hd2, isDigit_ne_slash hm1,
      isDigit_ne_slash hm2]
  · intro z1 z2 z3 z4 e1 e2 n1 n2 hz
    rw [← key hz, ← key h]

/-- C12, witness: `2021/15/06` formats back to itself and marshals to `2021-15-06`. -/
theorem date_round_trip_witness :
    Time.Format ⟨2021, 1, 1, 0, 6, 15, 0⟩ layout = "2021/15/06" ∧
    date.MarshalText ⟨2021, 1, 1, 0, 6, 15, 0⟩ = "2021-15-06" :=
  ⟨(date_round_trip '2' '0' '2' '1' '1' '5' '0' '6' ⟨2021, 1, 1, 0, 6, 15, 0⟩ rfl).1,
   (date_round_trip '2' '0' '2' '1' '1' '5' '0' '6' ⟨2021, 1, 1, 0, 6, 15, 0⟩ rfl).2.1⟩

/-- C13: `FromGoodreadsBook` sets `Author` to the row's author and `Shelf` to the row's
exclusive shelf, unchanged, whatever the receiver, the title and the dates are and
whether it fails or not; and when it succeeds `AddedAt` is the parse of `Date Added`. -/
theorem verbatim_copy (b : Book) (src : GoodreadsBook) :
    (b.FromGoodreadsBook src).1.Author = src.Author ∧
    (b.FromGoodreadsBook src).1.Shelf = src.Shelf ∧
    (∀ (b' : Book) (title dateRead dateAdded : String),
      (b'.FromGoodreadsBook
        { src with Title := title, DateRead := dateRead, DateAdded := dateAdded }).1.Author
          = src.Author ∧
      (b'.FromGoodreadsBook
        { src with Title := title, DateRead := dateRead, DateAdded := dateAdded }).1.Shelf
          = src.Shelf) ∧
    ((b.FromGoodreadsBook src).2 = none →
      Parse src.DateAdded = .ok (b.FromGoodreadsBook src).1.AddedAt) := by
  refine ⟨(FromGoodreadsBook_Author_Shelf b src).1, (FromGoodreadsBook_Author_Shelf b src).2,
    ?_, FromGoodreadsBook_AddedAt b src⟩
  intro b' title dateRead dateAdded
  exact FromGoodreadsBook_Author_Shelf b' _

/-- C13, witness: a row whose author and shelf carry surrounding blanks. -/
theorem verbatim_copy_witness :
    (Book.fresh.FromGoodreadsBook
      ⟨"1984", " George Orwell ", "", "2020/01/01", " Read "⟩).1.Author = " George Orwell " ∧
    (Book.fresh.FromGoodreadsBook
      ⟨"1984", " George Orwell ", "", "2020/01/01", " Read "⟩).1.Shelf = " Read " ∧
    Parse "2020/01/01" = .ok (Book.fresh.FromGoodreadsBook
      ⟨"1984", " George Orwell ", "", "2020/01/01", " Read "⟩).1.AddedAt :=
  ⟨(verbatim_copy Book.fresh ⟨"1984", " George Orwell ", "", "2020/01/01", " Read "⟩).1,
   (verbatim_copy Book.fresh ⟨"1984", " George Orwell ", "", "2020/01/01", " Read "⟩).2.1,
   (verbatim_copy Book.fresh ⟨"1984", " George Orwell ", "", "2020/01/01", " Read "⟩).2.2.2
     (by decide)⟩

/-! ## More lemmas on the title parser -/

theorem trimLeft_head {l : List Char} {c : Char} (h : (trimLeft l).head? = some c) :
    isSpace c = false := by
  have := List.head?_dropWhile_not isSpace l
  unfold trimLeft at h
  rw [h] at this
  simpa using this

theorem trimRight_getLast {l : List Char} {c : Char} (h : (trimRight l).getLast? = some c) :
    isSpace c = false := by
  have := List.head?_dropWhile_not isSpace l.reverse
  unfold trimRight at h
  rw [List.getLast?_reverse] at h
  rw [h] at this
  simpa using this

theorem trimRight_prefix (l : List Char) : trimRight l <+: l := by
  have h := List.dropWhile_suffix (l := l.reverse) isSpace
  have h' := List.reverse_prefix.mpr h
  simpa [trimRight] using h'

theorem trimRight_head {l : List Char} {c : Char} (h : (trimRight l).head? = some c) :
    l.head? = some c := by
  obtain ⟨r, hr⟩ := trimRight_prefix l
  cases hx : trimRight l with
  | nil => rw [hx] at h; simp at h
  | cons x xs =>
    rw [hx] at h hr
    rw [← hr]
    simpa using h

/-- The text `TrimSpace` returns neither starts nor ends with white space. -/
theorem TrimSpace_trimmed (s : String) :
    (∀ c, (TrimSpace s).data.head? = some c → isSpace c = false) ∧
    (∀ c, (TrimSpace s).data.getLast? = some c → isSpace c = false) := by
  constructor
  · intro c hc
    exact trimLeft_head (trimRight_head hc)
  · intro c hc
    exact trimRight_getLast hc

/-- What `TrimSpace` removes is white space, in front and behind, and nothing else. -/
theorem TrimSpace_spec (s : String) :
    ∃ l r : List Char, s.data = l ++ (TrimSpace s).data ++ r ∧
      (∀ c ∈ l, isSpace c = true) ∧ (∀ c ∈ r, isSpace c = true) := by
  refine ⟨s.data.takeWhile isSpace,
    ((s.data.dropWhile isSpace).reverse.takeWhile isSpace).reverse, ?_, ?_, ?_⟩
  · have h1 := List.takeWhile_append_dropWhile isSpace s.data
    have h2 := List.takeWhile_append_dropWhile isSpace (s.data.dropWhile isSpace).reverse
    have h3 : s.data.dropWhile isSpace =
        ((s.data.dropWhile isSpace).reverse.dropWhile isSpace).reverse ++
          ((s.data.dropWhile isSpace).reverse.takeWhile isSpace).reverse := by
      rw [← List.reverse_append, h2, List.reverse_reverse]
    simp only [TrimSpace, trimRight, trimLeft]
    rw [List.append_assoc, ← h3, h1]
  · intro c hc
    exact List.mem_takeWhile_imp hc
  · intro c hc
    exact List.mem_takeWhile_imp (List.mem_reverse.mp hc)

/-- On a text without a newline the leftmost match starts at the first character. -/
theorem findMatch_no_newline {s m g1 g2 g3 : List Char} (hnl : '\n' ∉ s)
    (h : findMatch s = some (m, g1, g2, g3)) : m = s := by
  cases s with
  | nil => simp [findMatch] at h
  | cons c cs =>
    unfold findMatch at h
    cases hm : matchHere (c :: cs) with
    | some g =>
      rw [hm] at h
      simp only [Option.some.injEq, Prod.mk.injEq] at h
      exact h.1.symm
    | none =>
      rw [hm] at h
      exfalso
      obtain ⟨⟨pre, hpre⟩, ⟨hne1, hd1⟩, h2, h3, hmm⟩ := findMatch_sound h
      have hg : IsGroup (c :: pre ++ g1) := by
        refine ⟨by simp, ?_⟩
        intro x hx
        have hxs : x ∈ c :: cs := by
          rw [hpre, hmm]
          simp only [List.cons_append, List.mem_cons, List.mem_append] at hx ⊢
          rcases hx with hx | hx | hx
          · exact Or.inl hx
          · exact Or.inr (Or.inl hx)
          · exact Or.inr (Or.inr (Or.inl hx))
        have : x ≠ '\n' := fun e => hnl (e ▸ hxs)
        simpa [dot] using this
      have hM : MatchAt (c :: cs) (c :: pre ++ g1) g2 g3 := by
        refine ⟨hg, h2, h3, ?_⟩
        rw [hpre, hmm]
        simp
      have := matchHere_complete hM
      rw [hm] at this
      simp at this

/-- The title step on a title `p(s, #v)` whose groups are as the greedy search wants them:
no newline, no `(` in `s` and `v`, no `, #` in `v`. -/
theorem FromGoodreadsBook_greedy (b : Book) (src : GoodreadsBook) {p s v : List Char}
    (hT : src.Title.data = p ++ '(' :: (s ++ ',' :: ' ' :: '#' :: (v ++ [')'])))
    (hp : p ≠ []) (hs : s ≠ []) (hv : v ≠ []) (hnl : '\n' ∉ src.Title.data)
    (hs' : '(' ∉ s) (hv' : '(' ∉ v) (hv'' : ¬ [',', ' ', '#'] <:+: v) :
    (b.FromGoodreadsBook src).1.Title = TrimSpace ⟨p⟩ ∧
    (b.FromGoodreadsBook src).1.Series = some ⟨s⟩ ∧
    (b.FromGoodreadsBook src).1.SeriesVolume = some ⟨v⟩ := by
  have hdot : ∀ c ∈ src.Title.data, dot c = true := by
    intro c hc
    have : c ≠ '\n' := fun e => hnl (e ▸ hc)
    simpa [dot] using this
  rw [hT] at hdot
  have hpg : IsGroup p := ⟨hp, fun c hc => hdot c (by simp [hc])⟩
  have hsg : IsGroup s := ⟨hs, fun c hc => hdot c (by simp [hc])⟩
  have hvg : IsGroup v := ⟨hv, fun c hc => hdot c (by simp [hc])⟩
  have hm := matchHere_greedy hpg hsg hvg hs' hv' hv''
  obtain ⟨c, cs, hcs⟩ : ∃ c cs, p ++ '(' :: (s ++ ',' :: ' ' :: '#' :: (v ++ [')'])) = c :: cs := by
    cases p with
    | nil => exact absurd rfl hp
    | cons x xs => exact ⟨x, _, rfl⟩
  have hfind : findMatch src.Title.data = some (c :: cs, p, s, v) := by
    rw [hT, hcs, findMatch, ← hcs, hm]
  exact FromGoodreadsBook_of_match b src hfind

/-! ## The shape of titles and the comparator (C14, C15, C18) -/

/-- C14: for every title `p(s, #v)` with `p`, `s`, `v` non-empty, without a newline, with
no `(` in `s` and `v` and no `, #` in `v`, the title parser returns `Title` = `p` trimmed,
`Series` = `s` and `SeriesVolume` = `v`, whatever earlier groups `p` holds. -/
theorem greedy_split (p s v author dateRead dateAdded shelf : String)
    (hp : p ≠ "") (hs : s ≠ "") (hv : v ≠ "")
    (hnl : '\n' ∉ (p ++ "(" ++ s ++ ", #" ++ v ++ ")").data)
    (hs' : '(' ∉ s.data) (hv' : '(' ∉ v.data) (hv'' : ¬ ", #".data <:+: v.data) :
    (Book.fresh.FromGoodreadsBook
      ⟨p ++ "(" ++ s ++ ", #" ++ v ++ ")", author, dateRead, dateAdded, shelf⟩).1.Title
        = TrimSpace p ∧
    (Book.fresh.FromGoodreadsBook
      ⟨p ++ "(" ++ s ++ ", #" ++ v ++ ")", author, dateRead, dateAdded, shelf⟩).1.Series
        = some s ∧
    (Book.fresh.FromGoodreadsBook
      ⟨p ++ "(" ++ s ++ ", #" ++ v ++ ")", author, dateRead, dateAdded, shelf⟩).1.SeriesVolume
        = some v :=
  FromGoodreadsBook_greedy Book.fresh
    ⟨p ++ "(" ++ s ++ ", #" ++ v ++ ")", author, dateRead, dateAdded, shelf⟩
    (by simp [String.data_append]) (fun e => hp (String.ext e)) (fun e => hs (String.ext e))
    (fun e => hv (String.ext e)) hnl hs' hv' hv''

/-- C14, witness: `A (B, #1) (C, #2)` gives title `A (B, #1)`, series `C`, volume `2`. -/
theorem greedy_split_witness :
    (Book.fresh.FromGoodreadsBook
      ⟨"A (B, #1) (C, #2)", "x", "", "2020/01/01", "read"⟩).1.Title = "A (B, #1)" ∧
    (Book.fresh.FromGoodreadsBook
      ⟨"A (B, #1) (C, #2)", "x", "", "2020/01/01", "read"⟩).1.Series = some "C" ∧
    (Book.fresh.FromGoodreadsBook
      ⟨"A (B, #1) (C, #2)", "x", "", "2020/01/01", "read"⟩).1.SeriesVolume = some "2" := by
  have h := greedy_split "A (B, #1) " "C" "2" "x" "" "2020/01/01" "read"
    (by decide) (by decide) (by decide) (by decide) (by decide) (by decide) (by decide)
  have e : TrimSpace "A (B, #1) " = "A (B, #1)" := by decide
  rw [e] at h
  exact h

/-- C15: the comparator is true as soon as one of the two read dates is absent — so it
holds of an absent-date book and itself, and both ways round between any book and an
absent-date book —, and on books with a read date it is `Before` on the two times:
irreflexive, asymmetric and transitive. -/
theorem less_not_strict :
    (∀ a b : Book, a.ReadAt = none ∨ b.ReadAt = none → less a b = true) ∧
    (∀ x : Book, x.ReadAt = none → less x x = true) ∧
    (∀ a b : Book, b.ReadAt = none → less a b = true ∧ less b a = true) ∧
    (∀ (a b : Book) (t u : Time), a.ReadAt = some t → b.ReadAt = some u →
      less a b = t.Before u) ∧
    (∀ a : Book, a.ReadAt ≠ none → less a a = false) ∧
    (∀ a b : Book, a.ReadAt ≠ none → b.ReadAt ≠ none → less a b = true → less b a = false) ∧
    (∀ a b c : Book, a.ReadAt ≠ none → b.ReadAt ≠ none → c.ReadAt ≠ none →
      less a b = true → less b c = true → less a c = true) := by
  have hnone : ∀ a b : Book, a.ReadAt = none ∨ b.ReadAt = none → less a b = true := by
    intro a b h
    unfold less
    rcases h with h | h
    · rw [h]
    · rw [h]
      cases a.ReadAt <;> rfl
  have hirr : ∀ a : Book, a.ReadAt ≠ none → less a a = false := by
    intro a ha
    obtain ⟨t, ht⟩ := Option.ne_none_iff_exists'.mp ha
    rw [less_of_dated ht ht, lexLt_irrefl]
  have htrans : ∀ a b c : Book, a.ReadAt ≠ none → b.ReadAt ≠ none → c.ReadAt ≠ none →
      less a b = true → less b c = true → less a c = true := by
    intro a b c ha hb hc
    obtain ⟨t, ht⟩ := Option.ne_none_iff_exists'.mp ha
    obtain ⟨u, hu⟩ := Option.ne_none_iff_exists'.mp hb
    obtain ⟨w, hw⟩ := Option.ne_none_iff_exists'.mp hc
    rw [less_of_dated ht hu, less_of_dated hu hw, less_of_dated ht hw]
    exact lexLt_trans
  refine ⟨hnone, fun x hx => hnone x x (Or.inl hx),
    fun a b hb => ⟨hnone a b (Or.inr hb), hnone b a (Or.inl hb)⟩, ?_, hirr, ?_, htrans⟩
  · intro a b t u ha hb
    rw [less_of_dated ha hb, Time.Before]
  · intro a b ha hb hab
    cases hba : less b a with
    | false => rfl
    | true =>
      have := htrans a b a ha hb ha hab hba
      rw [hirr a ha] at this
      exact absurd this (by simp)

/-- C15, witness: a book without a read date is `less` than itself, and a book read in
2020 and a book without a read date are each `less` than the other. -/
theorem less_not_strict_witness :
    less ⟨"B", none, none, "x", none, ⟨2020, 1, 1, 0, 1, 1, 0⟩, "read"⟩
      ⟨"B", none, none, "x", none, ⟨2020, 1, 1, 0, 1, 1, 0⟩, "read"⟩ = true ∧
    (less ⟨"C", none, none, "x", some ⟨2020, 1, 1, 0, 1, 1, 0⟩, ⟨2020, 1, 1, 0, 1, 1, 0⟩, "read"⟩
      ⟨"B", none, none, "x", none, ⟨2020, 1, 1, 0, 1, 1, 0⟩, "read"⟩ = true ∧
     less ⟨"B", none, none, "x", none, ⟨2020, 1, 1, 0, 1, 1, 0⟩, "read"⟩
      ⟨"C", none, none, "x", some ⟨2020, 1, 1, 0, 1, 1, 0⟩, ⟨2020, 1, 1, 0, 1, 1, 0⟩, "read"⟩
        = true) :=
  ⟨less_not_strict.2.1 _ rfl, less_not_strict.2.2.1 _ _ rfl⟩

/-- C18: when the title parser reports a series, `Series` and `SeriesVolume` are
non-empty, `Title` neither starts nor ends with white space, and the raw title ends with
`(Series, #SeriesVolume)` preceded by at least one character; when moreover the raw title
holds no newline, it is `g(Series, #SeriesVolume)` for a non-empty `g` whose trimmed form
is `Title`.  In every case `Title` is what is left of the text `g` in front of the last
group once the white space before and after it is taken away. -/
theorem match_shape (src : GoodreadsBook) (sr : String)
    (h : (Book.fresh.FromGoodreadsBook src).1.Series = some sr) :
    ∃ vol : String, (Book.fresh.FromGoodreadsBook src).1.SeriesVolume = some vol ∧
      sr ≠ "" ∧ vol ≠ "" ∧
      (∀ c, (Book.fresh.FromGoodreadsBook src).1.Title.data.head? = some c →
        isSpace c = false) ∧
      (∀ c, (Book.fresh.FromGoodreadsBook src).1.Title.data.getLast? = some c →
        isSpace c = false) ∧
      (∃ pre : String, pre ≠ "" ∧ src.Title = pre ++ "(" ++ sr ++ ", #" ++ vol ++ ")") ∧
      ('\n' ∉ src.Title.data →
        ∃ g : String, g ≠ "" ∧ src.Title = g ++ "(" ++ sr ++ ", #" ++ vol ++ ")" ∧
          TrimSpace g = (Book.fresh.FromGoodreadsBook src).1.Title) ∧
      (∃ (pre g : String) (l r : List Char), g ≠ "" ∧
        src.Title = pre ++ g ++ "(" ++ sr ++ ", #" ++ vol ++ ")" ∧
        ('\n' ∉ src.Title.data → pre = "") ∧
        g.data = l ++ (Book.fresh.FromGoodreadsBook src).1.Title.data ++ r ∧
        (∀ c ∈ l, isSpace c = true) ∧ (∀ c ∈ r, isSpace c = true)) := by
  cases hf : findMatch src.Title.data with
  | none =>
    obtain ⟨_, h2, _⟩ := FromGoodreadsBook_of_no_match Book.fresh src hf
    rw [h2] at h
    simp [Book.fresh] at h
  | some g =>
    obtain ⟨m, g1, g2, g3⟩ := g
    obtain ⟨h1, h2, h3⟩ := FromGoodreadsBook_of_match Book.fresh src hf
    rw [h2] at h
    simp only [Option.some.injEq] at h
    subst h
    obtain ⟨⟨pre, hpre⟩, ⟨hne1, hd1⟩, ⟨hne2, hd2⟩, ⟨hne3, hd3⟩, hm⟩ := findMatch_sound hf
    refine ⟨⟨g3⟩, h3, ?_, ?_, ?_, ?_, ?_, ?_, ?_⟩
    · intro e
      exact hne2 (congrArg String.data e)
    · intro e
      exact hne3 (congrArg String.data e)
    · rw [h1]
      exact (TrimSpace_trimmed ⟨g1⟩).1
    · rw [h1]
      exact (TrimSpace_trimmed ⟨g1⟩).2
    · refine ⟨⟨pre ++ g1⟩, ?_, ?_⟩
      · intro e
        have := congrArg String.data e
        simp only [List.append_eq_nil] at this
        exact hne1 this.2
      · apply String.ext
        rw [hpre, hm]
        simp [String.data_append]
    · intro hnl
      have hms := findMatch_no_newline hnl hf
      refine ⟨⟨g1⟩, ?_, ?_, h1.symm⟩
      · intro e
        exact hne1 (congrArg String.data e)
      · apply String.ext
        rw [← hms, hm]
        simp [String.data_append]
    · obtain ⟨l, r, hlr, hl, hr⟩ := TrimSpace_spec ⟨g1⟩
      refine ⟨⟨pre⟩, ⟨g1⟩, l, r, ?_, ?_, ?_, ?_, hl, hr⟩
      · intro e
        exact hne1 (congrArg String.data e)
      · apply String.ext
        rw [hpre, hm]
        simp [String.data_append]
      · intro hnl
        have hms := findMatch_no_newline hnl hf
        apply String.ext
        show pre = []
        have hlen := congrArg List.length hpre
        rw [hms] at hlen
        simp only [List.length_append] at hlen
        exact List.eq_nil_of_length_eq_zero (by omega)
      · rw [h1]
        exact hlr

/-- C18, witness: `Mockingjay (The Hunger Games, #3)`: the title is `Mockingjay`, cut from
`Mockingjay ` in front of the group. -/
theorem match_shape_witness :
    (Book.fresh.FromGoodreadsBook
      ⟨"Mockingjay (The Hunger Games, #3)", "x", "", "2020/01/01", "read"⟩).1.Title
        = "Mockingjay" ∧
    ∃ vol : String,
      (Book.fresh.FromGoodreadsBook
        ⟨"Mockingjay (The Hunger Games, #3)", "x", "", "2020/01/01", "read"⟩).1.SeriesVolume
          = some vol ∧
      ("The Hunger Games" : String) ≠ "" ∧ vol ≠ "" ∧
      (∃ pre : String, pre ≠ "" ∧
        ("Mockingjay (The Hunger Games, #3)" : String) =
          pre ++ "(" ++ "The Hunger Games" ++ ", #" ++ vol ++ ")") ∧
      ∃ (pre g : String) (l r : List Char), g ≠ "" ∧
        ("Mockingjay (The Hunger Games, #3)" : String) =
          pre ++ g ++ "(" ++ "The Hunger Games" ++ ", #" ++ vol ++ ")" ∧
        g.data = l ++ ("Mockingjay" : String).data ++ r ∧
        (∀ c ∈ l, isSpace c = true) ∧ (∀ c ∈ r, isSpace c = true) := by
  have ht : (Book.fresh.FromGoodreadsBook
      ⟨"Mockingjay (The Hunger Games, #3)", "x", "", "2020/01/01", "read"⟩).1.Title
        = "Mockingjay" := by decide
  obtain ⟨vol, h1, h2, h3, -, -, h4, -, pre, g, l, r, h5, h6, -, h7, h8, h9⟩ :=
    match_shape ⟨"Mockingjay (The Hunger Games, #3)", "x", "", "2020/01/01", "read"⟩
      "The Hunger Games" (by decide)
  rw [ht] at h7
  exact ⟨ht, vol, h1, h2, h3, h4, pre, g, l, r, h5, h6, h7, h8, h9⟩

/-! ## More lemmas on the insertion sort with the comparator of `main` -/

/-- A book with a read date takes, among the books with a read date, the place it would
take if the books without one were not there. -/
theorem filter_insertRev_dated (x : Book) (hx : x.ReadAt.isSome = true) (rp : List Book) :
    (insertRev less x rp).filter (fun b => b.ReadAt.isSome) =
      insertRev less x (rp.filter (fun b => b.ReadAt.isSome)) := by
  induction rp with
  | nil => simp [insertRev, hx]
  | cons y r ih =>
    cases hy : y.ReadAt with
    | none =>
      have hl : less x y = true := by
        unfold less
        rw [hy]
        cases x.ReadAt <;> rfl
      simp only [insertRev, hl, if_true]
      rw [List.filter_cons, List.filter_cons]
      simp only [hy, Option.isSome_none, Bool.false_eq_true, if_false]
      exact ih
    | some u =>
      by_cases hl : less x y = true
      · simp only [insertRev, hl, if_true]
        rw [List.filter_cons, List.filter_cons]
        simp only [hy, Option.isSome_some, if_true, insertRev, hl]
        rw [ih]
      · have hl' : less x y = false := by simpa using hl
        simp [insertRev, hl', List.filter_cons, hy, hx]

theorem filter_foldl_insertRev (rest rp : List Book) :
    (rest.foldl (fun acc x => insertRev less x acc) rp).filter (fun b => b.ReadAt.isSome) =
      (rest.filter (fun b => b.ReadAt.isSome)).foldl (fun acc x => insertRev less x acc)
        (rp.filter (fun b => b.ReadAt.isSome)) := by
  induction rest generalizing rp with
  | nil => simp
  | cons x rest ih =>
    simp only [List.foldl_cons]
    rw [ih]
    cases hx : x.ReadAt with
    | none =>
      rw [insertRev_absent x hx, List.filter_cons]
      simp [hx]
    | some u =>
      have hx' : x.ReadAt.isSome = true := by simp [hx]
      rw [filter_insertRev_dated x hx', List.filter_cons]
      simp [hx]

/-- The books with a read date come out of the insertion sort as if they had been sorted
alone. -/
theorem insertionSortLessFunc_filter_dated (books : List Book) :
    (insertionSortLessFunc less books).filter (fun b => b.ReadAt.isSome) =
      insertionSortLessFunc less (books.filter (fun b => b.ReadAt.isSome)) := by
  rw [insertionSortLessFunc_eq, insertionSortLessFunc_eq, List.filter_reverse,
    filter_foldl_insertRev]
  simp

theorem readNoLater_of_less {a b : Book} {t u : Time} {sa sb : String}
    (ha : a.ReadAt = some t) (hb : b.ReadAt = some u) (hpa : Parse sa = .ok t)
    (hpb : Parse sb = .ok u) (h : less b a = false) : ReadNoLater a b := by
  refine ⟨t, u, ha, hb, ?_⟩
  rw [less_of_dated hb ha, lexLt_fields_eq (Parse_shape hpa) (Parse_shape hpb)] at h
  exact h

/-- Go `Swap` rearranges the slice. -/
theorem swap_perm (data : List Book) (i j : Nat) : (swap data i j).Perm data := by
  unfold swap
  cases hi : data[i]? with
  | none => exact List.Perm.refl _
  | some x =>
    cases hj : data[j]? with
    | none => exact List.Perm.refl _
    | some y =>
      obtain ⟨hil, hix⟩ := List.getElem?_eq_some.mp hi
      obtain ⟨hjl, hjy⟩ := List.getElem?_eq_some.mp hj
      simp only
      rw [List.perm_iff_count]
      intro b
      have hjl' : j < (data.set i y).length := by simpa using hjl
      have hget : (data.set i y)[j] = y := by
        rw [List.getElem_set]
        split
        · rfl
        · exact hjy
      rw [List.count_set _ _ _ _ hjl', List.count_set _ _ _ _ hil, hget, hix]
      have hle : (if x == b then 1 else 0) ≤ data.count b := by
        have := List.boole_getElem_le_count b data i hil
        rw [hix] at this
        exact this
      omega

/-- A run over `Less` and `Swap` rearranges the slice, whatever the comparator answers. -/
theorem LessSwap.run_perm (lt : Book → Book → Bool) (p : LessSwap) (data : List Book) :
    (p.run lt data).Perm data := by
  induction p generalizing data with
  | done => exact List.Perm.refl _
  | less i j next ih => exact ih _ data
  | swap i j next ih => exact (ih (Goodreads.swap data i j)).trans (swap_perm data i j)

theorem insertLoopRun_run (lt : Book → Book → Bool) (j : Nat) (k : LessSwap)
    (data : List Book) :
    (insertLoopRun j k).run lt data = k.run lt (insertLoop lt data j) := by
  induction j generalizing data with
  | zero => rfl
  | succ j ih =>
    cases h1 : data[j + 1]? with
    | none => simp [insertLoopRun, LessSwap.run, lessAt, insertLoop, h1]
    | some x =>
      cases h2 : data[j]? with
      | none => simp [insertLoopRun, LessSwap.run, lessAt, insertLoop, h1, h2]
      | some y =>
        by_cases hl : lt x y = true
        · simp [insertLoopRun, LessSwap.run, lessAt, insertLoop, h1, h2, hl, ih]
        · simp [insertLoopRun, LessSwap.run, lessAt, insertLoop, h1, h2, hl]

theorem outerLoopRun_run (lt : Book → Book → Bool) (i n : Nat) (data : List Book) :
    (outerLoopRun i n).run lt data = outerLoop lt data i n := by
  induction n generalizing i data with
  | zero => rfl
  | succ n ih =>
    simp only [outerLoopRun, outerLoop, insertLoopRun_run, ih]

/-- Go's insertion sort is a run over `Less` and `Swap`. -/
theorem lessSwapSort_insertionSortRun (lt : Book → Book → Bool) (data : List Book) :
    lessSwapSort insertionSortRun lt data = insertionSortLessFunc lt data := by
  simp only [lessSwapSort, insertionSortRun, insertionSortLessFunc, outerLoopRun_run]

/-! ## The sort with absent dates (C16 and C17) -/

/-- C16: for every input of at most 12 rows that all parse, the books with a read date
appear in the sorted sequence, and so in `Read` and in `ToRead`, in non-decreasing order of
read date, wherever the books without a read date are: they come out as the insertion
sort of the dated books alone. -/
theorem dated_books_ordered (pdq : (Book → Book → Bool) → List Book → List Book)
    (rows : List GoodreadsBook) (sorted : List Book) (hlen : rows.length ≤ 12)
    (hsorted : sortedBooks pdq rows = .ok sorted) :
    (sorted.filter (fun b => b.ReadAt.isSome)).Pairwise ReadNoLater ∧
    sorted.filter (fun b => b.ReadAt.isSome) =
      insertionSortLessFunc less
        ((rows.map (fun r => (Book.fresh.FromGoodreadsBook r).1)).filter
          (fun b => b.ReadAt.isSome)) ∧
    ((partition sorted).Read.filter (fun b => b.ReadAt.isSome)).Pairwise ReadNoLater ∧
    ((partition sorted).ToRead.filter (fun b => b.ReadAt.isSome)).Pairwise ReadNoLater := by
  obtain ⟨hall, rfl⟩ := (sortedBooks_ok_iff pdq rows sorted).mp hsorted
  rw [sortSlice_short _ _ _ (by simpa using hlen)]
  have hfilter := insertionSortLessFunc_filter_dated
    (rows.map (fun r => (Book.fresh.FromGoodreadsBook r).1))
  have hparse : ∀ b ∈ (rows.map (fun r => (Book.fresh.FromGoodreadsBook r).1)).filter
      (fun b => b.ReadAt.isSome),
      ∃ r ∈ rows, ∃ t, Parse r.DateRead = .ok t ∧ b.ReadAt = some t := by
    intro b hb
    obtain ⟨hb1, hb2⟩ := List.mem_filter.mp hb
    obtain ⟨r, hr, rfl⟩ := List.mem_map.mp hb1
    have hne : r.DateRead ≠ "" := by
      intro e
      have := (ReadAt_eq_none_iff r (hall r hr)).mpr e
      rw [this] at hb2
      simp at hb2
    obtain ⟨t, ht, hb'⟩ := ReadAt_eq_parse r (hall r hr) hne
    exact ⟨r, hr, t, ht, hb'⟩
  have hdated : ∀ b ∈ (rows.map (fun r => (Book.fresh.FromGoodreadsBook r).1)).filter
      (fun b => b.ReadAt.isSome), b.ReadAt ≠ none := by
    intro b hb
    obtain ⟨_, _, t, _, ht⟩ := hparse b hb
    simp [ht]
  obtain ⟨hperm, hpair⟩ :=
    insertionSortLessFunc_contract less _ (less_transitiveOrdering _ hdated)
  have hmain : ((insertionSortLessFunc less
      (rows.map (fun r => (Book.fresh.FromGoodreadsBook r).1))).filter
        (fun b => b.ReadAt.isSome)).Pairwise ReadNoLater := by
    rw [hfilter]
    refine List.Pairwise.imp_of_mem ?_ hpair
    intro a b ha hb hba
    obtain ⟨_, _, t, ht, hat⟩ := hparse a (hperm.mem_iff.mp ha)
    obtain ⟨_, _, u, hu, hbu⟩ := hparse b (hperm.mem_iff.mp hb)
    exact readNoLater_of_less hat hbu ht hu hba
  refine ⟨hmain, hfilter, ?_, ?_⟩
  · rw [partition_eq]
    exact hmain.sublist ((List.filter_sublist _).filter _)
  · rw [partition_eq]
    exact hmain.sublist ((List.filter_sublist _).filter _)

/-- C16, witness: read dates `2021/15/06`, empty, `2020/01/01`; the two dated books come
out in the order 2020, 2021, around the book without a read date. -/
theorem dated_books_ordered_witness :
    sortedBooks insertionSortLessFunc
        [⟨"A", "x", "2021/15/06", "2020/01/01", "read"⟩,
         ⟨"B", "x", "", "2020/01/01", "read"⟩,
         ⟨"C", "x", "2020/01/01", "2020/01/01", "read"⟩] =
      .ok [⟨"C", none, none, "x", some ⟨2020, 1, 1, 0, 1, 1, 0⟩, ⟨2020, 1, 1, 0, 1, 1, 0⟩, "read"⟩,
           ⟨"B", none, none, "x", none, ⟨2020, 1, 1, 0, 1, 1, 0⟩, "read"⟩,
           ⟨"A", none, none, "x", some ⟨2021, 1, 1, 0, 6, 15, 0⟩, ⟨2020, 1, 1, 0, 1, 1, 0⟩, "read"⟩] ∧
    (([⟨"C", none, none, "x", some ⟨2020, 1, 1, 0, 1, 1, 0⟩, ⟨2020, 1, 1, 0, 1, 1, 0⟩, "read"⟩,
       ⟨"B", none, none, "x", none, ⟨2020, 1, 1, 0, 1, 1, 0⟩, "read"⟩,
       ⟨"A", none, none, "x", some ⟨2021, 1, 1, 0, 6, 15, 0⟩, ⟨2020, 1, 1, 0, 1, 1, 0⟩, "read"⟩]
       : List Book).filter (fun b => b.ReadAt.isSome)).Pairwise ReadNoLater :=
  ⟨rfl, (dated_books_ordered insertionSortLessFunc
    [⟨"A", "x", "2021/15/06", "2020/01/01", "read"⟩,
     ⟨"B", "x", "", "2020/01/01", "read"⟩,
     ⟨"C", "x", "2020/01/01", "2020/01/01", "read"⟩] _ (by decide) rfl).1⟩

/-- C17: when every row parses, the sorted sequence is a permutation of the normalized
books, `Read` a permutation of those with shelf `read`, `ToRead` of those with shelf
`to-read`, and their lengths are the numbers of rows with each shelf — up to 12 rows by
the insertion sort, and beyond by whatever series of `Less` and `Swap` calls the library
routine makes, inconsistent as the answers of the comparator may be.  Go's insertion sort
is itself such a series of calls. -/
theorem no_book_lost (routine : Nat → LessSwap)
    (rows : List GoodreadsBook) (sorted : List Book)
    (hsorted : sortedBooks (lessSwapSort routine) rows = .ok sorted) :
    sorted.Perm (rows.map (fun r => (Book.fresh.FromGoodreadsBook r).1)) ∧
    (partition sorted).Read.Perm
      ((rows.map (fun r => (Book.fresh.FromGoodreadsBook r).1)).filter
        (fun v => decide (v.Shelf = "read"))) ∧
    (partition sorted).ToRead.Perm
      ((rows.map (fun r => (Book.fresh.FromGoodreadsBook r).1)).filter
        (fun v => decide (v.Shelf = "to-read"))) ∧
    (partition sorted).Read.length =
      (rows.filter (fun r => decide (r.Shelf = "read"))).length ∧
    (partition sorted).ToRead.length =
      (rows.filter (fun r => decide (r.Shelf = "to-read"))).length ∧
    run (lessSwapSort routine) rows = .ok (partition sorted) ∧
    (∀ (lt : Book → Book → Bool) (data : List Book),
      lessSwapSort insertionSortRun lt data = insertionSortLessFunc lt data) := by
  have hrun : run (lessSwapSort routine) rows = .ok (partition sorted) := by
    simp [run, hsorted]
  obtain ⟨hall, rfl⟩ := (sortedBooks_ok_iff _ rows sorted).mp hsorted
  have hperm : (sortSlice (lessSwapSort routine) less
        (rows.map (fun r => (Book.fresh.FromGoodreadsBook r).1))).Perm
      (rows.map (fun r => (Book.fresh.FromGoodreadsBook r).1)) := by
    unfold sortSlice
    split
    · exact insertionSortLessFunc_perm less _
    · exact LessSwap.run_perm less _ _
  have hcount : ∀ shelf : String,
      ((rows.map (fun r => (Book.fresh.FromGoodreadsBook r).1)).filter
        (fun v => decide (v.Shelf = shelf))).length =
      (rows.filter (fun r => decide (r.Shelf = shelf))).length := by
    intro shelf
    rw [List.filter_map, List.length_map]
    congr 1
    apply List.filter_congr
    intro r _
    simp [(FromGoodreadsBook_Author_Shelf Book.fresh r).2]
  refine ⟨hperm, ?_, ?_, ?_, ?_, hrun, lessSwapSort_insertionSortRun⟩
  · rw [partition_eq]
    exact hperm.filter _
  · rw [partition_eq]
    exact hperm.filter _
  · rw [partition_eq, (hperm.filter _).length_eq, hcount]
  · rw [partition_eq, (hperm.filter _).length_eq, hcount]

/-- C17, witness: thirteen rows, four of them without a read date, sorted beyond the twelve
elements of the short path by the calls of the insertion sort: thirteen books come out, nine in `Read` and four in `ToRead`. -/
theorem no_book_lost_witness :
    ∃ sorted : List Book,
      sortedBooks
        (lessSwapSort insertionSortRun)
        [⟨"T1", "x", "2021/15/06", "2020/01/01", "read"⟩,
         ⟨"T2", "x", "", "2020/01/01", "to-read"⟩,
         ⟨"T3", "x", "2020/01/01", "2020/01/01", "read"⟩,
         ⟨"T4", "x", "2019/20/03", "2020/01/01", "read"⟩,
         ⟨"T5", "x", "", "2020/01/01", "to-read"⟩,
         ⟨"T6", "x", "2021/14/06", "2020/01/01", "read"⟩,
         ⟨"T7", "x", "2018/02/02", "2020/01/01", "read"⟩,
         ⟨"T8", "x", "", "2020/01/01", "to-read"⟩,
         ⟨"T9", "x", "2022/10/10", "2020/01/01", "read"⟩,
         ⟨"T10", "x", "2017/05/05", "2020/01/01", "read"⟩,
         ⟨"T11", "x", "", "2020/01/01", "to-read"⟩,
         ⟨"T12", "x", "2016/01/12", "2020/01/01", "read"⟩,
         ⟨"T13", "x", "2015/30/11", "2020/01/01", "read"⟩] = .ok sorted ∧
      sorted.length = 13 ∧ (partition sorted).Read.length = 9 ∧
      (partition sorted).ToRead.length = 4 := by
  have h : sortedBooks
      (lessSwapSort insertionSortRun)
      [⟨"T1", "x", "2021/15/06", "2020/01/01", "read"⟩,
         ⟨"T2", "x", "", "2020/01/01", "to-read"⟩,
         ⟨"T3", "x", "2020/01/01", "2020/01/01", "read"⟩,
         ⟨"T4", "x", "2019/20/03", "2020/01/01", "read"⟩,
         ⟨"T5", "x", "", "2020/01/01", "to-read"⟩,
         ⟨"T6", "x", "2021/14/06", "2020/01/01", "read"⟩,
         ⟨"T7", "x", "2018/02/02", "2020/01/01", "read"⟩,
         ⟨"T8", "x", "", "2020/01/01", "to-read"⟩,
         ⟨"T9", "x", "2022/10/10", "2020/01/01", "read"⟩,
         ⟨"T10", "x", "2017/05/05", "2020/01/01", "read"⟩,
         ⟨"T11", "x", "", "2020/01/01", "to-read"⟩,
         ⟨"T12", "x", "2016/01/12", "2020/01/01", "read"⟩,
         ⟨"T13", "x", "2015/30/11", "2020/01/01", "read"⟩] = .ok (sortSlice
        (lessSwapSort insertionSortRun)
        less ([⟨"T1", "x", "2021/15/06", "2020/01/01", "read"⟩,
         ⟨"T2", "x", "", "2020/01/01", "to-read"⟩,
         ⟨"T3", "x", "2020/01/01", "2020/01/01", "read"⟩,
         ⟨"T4", "x", "2019/20/03", "2020/01/01", "read"⟩,
         ⟨"T5", "x", "", "2020/01/01", "to-read"⟩,
         ⟨"T6", "x", "2021/14/06", "2020/01/01", "read"⟩,
         ⟨"T7", "x", "2018/02/02", "2020/01/01", "read"⟩,
         ⟨"T8", "x", "", "2020/01/01", "to-read"⟩,
         ⟨"T9", "x", "2022/10/10", "2020/01/01", "read"⟩,
         ⟨"T10", "x", "2017/05/05", "2020/01/01", "read"⟩,
         ⟨"T11", "x", "", "2020/01/01", "to-read"⟩,
         ⟨"T12", "x", "2016/01/12", "2020/01/01", "read"⟩,
         ⟨"T13", "x", "2015/30/11", "2020/01/01", "read"⟩].map (fun r => (Book.fresh.FromGoodreadsBook r).1))) :=
    (sortedBooks_ok_iff _ _ _).mpr ⟨by decide, rfl⟩
  obtain ⟨h1, -, -, h4, h5, -, -⟩ := no_book_lost _ _ _ h
  refine ⟨_, h, ?_, ?_, ?_⟩
  · rw [h1.length_eq]
    rfl
  · rw [h4]
    decide
  · rw [h5]
    decide

end Goodreads
